import Mathlib

/-!
Verification of the route-planning core of the SLC 3D indoor navigation map.

The source is a TypeScript module with a fixed waypoint graph
(navigationNodes), Euclidean edge weights, a Dijkstra search with early
exit (findPath), a bearing classifier (getDirection) and a path-node
extractor (getPathNodes).

Embedding notes.
The numeric type of the source is the JS number; we embed it as the real
numbers.  Dataset coordinates and floors are integer literals, so node
positions are stored as integer triples and are cast to the reals inside
the distance and bearing functions.  Because real arithmetic is not
executable in Lean, the Dijkstra search is written once, generically over
an abstract package of numeric operations (NumOps): instantiating it with
extended reals gives the faithful embedding (findPath), and instantiating
it with an exact computable representation of the ring Z + Z sqrt 2 +
Z sqrt 5 (in which all edge weights of the dataset lie) gives an
executable twin.  A bridge theorem proves the two instances produce the
same path on this dataset, so concrete runs can be settled by kernel
computation on the twin.

The predecessor-walk of the source can fail to terminate in JS (when the
requested end id is not a key, previous[current] is undefined, which is
distinct from null, so the while loop never exits).  The embedding models
this with fuel: a result of none from findPath means the source either
diverges or crashes, while some steps means the source returns steps.
-/

namespace SLCNav

/-- Waypoint category, from the union type in the source. -/
inductive NodeType
  | room
  | hallway
  | stairs
  | elevator
  | entrance
deriving DecidableEq

/-- A node of the navigation graph (interface PathNode in the source).
Positions and floors are integer literals in the dataset. -/
structure PathNode where
  id : String
  position : ℤ × ℤ × ℤ
  floor : ℤ
  type : NodeType
  connections : List String
deriving DecidableEq

instance : Inhabited PathNode := ⟨⟨"", (0, 0, 0), 0, .room, []⟩⟩

/-- One emitted instruction (interface PathStep in the source). -/
structure PathStep where
  «from» : String
  «to» : String
  direction : String
  distance : ℝ
  instruction : String
  floor : ℤ
  floorChange : Option String

/-- The navigation graph for St. Lawrence College, in source insertion
order (JS object keys preserve insertion order). -/
def navigationNodes : List (String × PathNode) := [
  ("ENTRANCE", ⟨"ENTRANCE", (0, 1, -4), 1, .entrance, ["HALL1_1", "HALL1_2"]⟩),
  ("HALL1_1", ⟨"HALL1_1", (0, 1, -2), 1, .hallway, ["ENTRANCE", "HALL1_2", "B101", "STAIRS1"]⟩),
  ("HALL1_2", ⟨"HALL1_2", (2, 1, 0), 1, .hallway, ["HALL1_1", "11840", "CAFE", "ELEVATOR1"]⟩),
  ("STAIRS1", ⟨"STAIRS1", (-1, 1, -1), 1, .stairs, ["HALL1_1", "STAIRS2"]⟩),
  ("ELEVATOR1", ⟨"ELEVATOR1", (3, 1, -1), 1, .elevator, ["HALL1_2", "ELEVATOR2"]⟩),
  ("B101", ⟨"B101", (0, 1, -2), 1, .room, ["HALL1_1"]⟩),
  ("11840", ⟨"11840", (-2, 1, 2), 1, .room, ["HALL1_2"]⟩),
  ("CAFE", ⟨"CAFE", (3, 1, 0), 1, .room, ["HALL1_2"]⟩),
  ("STAIRS2", ⟨"STAIRS2", (-1, 2, -1), 2, .stairs, ["STAIRS1", "HALL2_1"]⟩),
  ("ELEVATOR2", ⟨"ELEVATOR2", (3, 2, -1), 2, .elevator, ["ELEVATOR1", "HALL2_2"]⟩),
  ("HALL2_1", ⟨"HALL2_1", (0, 2, 0), 2, .hallway, ["STAIRS2", "HALL2_2", "A233", "C205"]⟩),
  ("HALL2_2", ⟨"HALL2_2", (2, 2, 1), 2, .hallway, ["HALL2_1", "ELEVATOR2", "LIB"]⟩),
  ("A233", ⟨"A233", (2, 2, 0), 2, .room, ["HALL2_1"]⟩),
  ("C205", ⟨"C205", (-1, 2, 1), 2, .room, ["HALL2_1"]⟩),
  ("LIB", ⟨"LIB", (0, 2, 3), 2, .room, ["HALL2_2"]⟩)]

/-- Keys of a graph, in insertion order. -/
def keysOf (nodes : List (String × PathNode)) : List String := nodes.map Prod.fst

/-- Connection list of a node, empty for an unknown key. -/
def connOf (nodes : List (String × PathNode)) (c : String) : List String :=
  match nodes.lookup c with
  | some n => n.connections
  | none => []

/-- Adjacency test: v is listed among the connections of u. -/
def adjB (nodes : List (String × PathNode)) (u v : String) : Bool :=
  match nodes.lookup u with
  | some n => decide (v ∈ n.connections)
  | none => false

/-- Euclidean distance between two integer positions
(function calculateDistance in the source). -/
noncomputable def calculateDistance (p q : ℤ × ℤ × ℤ) : ℝ :=
  Real.sqrt (((q.1 - p.1 : ℤ) : ℝ) ^ 2 + ((q.2.1 - p.2.1 : ℤ) : ℝ) ^ 2 +
    ((q.2.2 - p.2.2 : ℤ) : ℝ) ^ 2)

/-- The angle in degrees of the displacement (dx, dz), computed by the
two-argument arctangent; Complex.arg (dx + dz i) is atan2 dz dx, with
atan2 0 0 = 0 as in JS. -/
noncomputable def angleOf (dx dz : ℝ) : ℝ :=
  Complex.arg ⟨dx, dz⟩ * 180 / Real.pi

/-- The eight-sector classifier body of getDirection, on the computed
angle, with the conditions in source order. -/
noncomputable def classifyAngle (angle : ℝ) : String :=
  if -22.5 ≤ angle ∧ angle < 22.5 then "east"
  else if 22.5 ≤ angle ∧ angle < 67.5 then "northeast"
  else if 67.5 ≤ angle ∧ angle < 112.5 then "north"
  else if 112.5 ≤ angle ∧ angle < 157.5 then "northwest"
  else if 157.5 ≤ angle ∨ angle < -157.5 then "west"
  else if -157.5 ≤ angle ∧ angle < -112.5 then "southwest"
  else if -112.5 ≤ angle ∧ angle < -67.5 then "south"
  else if -67.5 ≤ angle ∧ angle < -22.5 then "southeast"
  else "forward"

/-- Bearing between two positions (function getDirection in the source);
the y components are discarded. -/
noncomputable def getDirection (fromPos toPos : ℤ × ℤ × ℤ) : String :=
  classifyAngle (angleOf ((toPos.1 - fromPos.1 : ℤ) : ℝ) ((toPos.2.2 - fromPos.2.2 : ℤ) : ℝ))

/-- JS Math.round: round half up. -/
noncomputable def jsRound (x : ℝ) : ℝ := ((⌊x + 1 / 2⌋ : ℤ) : ℝ)

/-- One instruction record for a traversed edge, mirroring the body of
the conversion loop of findPath (branching on the destination type). -/
noncomputable def mkStep (fromNode toNode : PathNode) : PathStep :=
  let direction := getDirection fromNode.position toNode.position
  let distance := calculateDistance fromNode.position toNode.position
  let ifc : String × Option String :=
    if toNode.type = NodeType.stairs then
      if toNode.floor > fromNode.floor then
        ("Take the stairs up to floor " ++ toString toNode.floor, some "up")
      else
        ("Take the stairs down to floor " ++ toString toNode.floor, some "down")
    else if toNode.type = NodeType.elevator then
      if toNode.floor > fromNode.floor then
        ("Take the elevator up to floor " ++ toString toNode.floor, some "up")
      else if toNode.floor < fromNode.floor then
        ("Take the elevator down to floor " ++ toString toNode.floor, some "down")
      else
        ("Continue to the elevator", none)
    else if toNode.type = NodeType.room then
      ("Arrive at " ++ toNode.id, none)
    else if toNode.type = NodeType.hallway then
      ("Continue " ++ direction ++ " down the hallway", none)
    else
      ("Head " ++ direction, none)
  ⟨fromNode.id, toNode.id, direction, jsRound (distance * 10) / 10, ifc.1, toNode.floor, ifc.2⟩

/-- Instruction synthesis over consecutive pairs of the reconstructed
path; a failed graph lookup models the JS TypeError on an undefined
node, hence the Option result. -/
noncomputable def pathSteps (nodes : List (String × PathNode)) : List String → Option (List PathStep)
  | [] => some []
  | [_] => some []
  | x :: y :: rest =>
    match nodes.lookup x, nodes.lookup y with
    | some nx, some ny =>
      match pathSteps nodes (y :: rest) with
      | some tail => some (mkStep nx ny :: tail)
      | none => none
    | _, _ => none

/-- Abstract numeric operations for the Dijkstra core: strict comparison,
addition, the distance zero, the value Infinity, and the Infinity test. -/
structure NumOps (D : Type) where
  ltb : D → D → Bool
  add : D → D → D
  zero : D
  inf : D
  isInf : D → Bool

/-- Scan for the unvisited node of minimum tentative distance (the inner
for loop of findPath); cur and m accumulate the best node and distance. -/
def findMin {D : Type} (ops : NumOps D) (dist : String → D) :
    List String → Option String → D → Option String × D
  | [], cur, m => (cur, m)
  | n :: rest, cur, m =>
    if ops.ltb (dist n) m then findMin ops dist rest (some n) (dist n)
    else findMin ops dist rest cur m

/-- Relaxation of the neighbors of the current node (the neighbor loop of
findPath): skip neighbors no longer unvisited, otherwise compare the new
tentative distance and update the distance and predecessor maps. -/
def relax {D : Type} (ops : NumOps D) (w : String → String → D) (current : String)
    (unvisited : List String) :
    List String → (String → D) → (String → Option (Option String)) →
      (String → D) × (String → Option (Option String))
  | [], dist, prev => (dist, prev)
  | nb :: rest, dist, prev =>
    if unvisited.contains nb then
      let nd := ops.add (dist current) (w current nb)
      if ops.ltb nd (dist nb) then
        relax ops w current unvisited rest
          (fun s => if s = nb then nd else dist s)
          (fun s => if s = nb then some (some current) else prev s)
      else relax ops w current unvisited rest dist prev
    else relax ops w current unvisited rest dist prev

/-- The main Dijkstra loop of findPath.  Each iteration either stops (no
reachable unvisited node, or the goal is extracted) or settles exactly one
node, so fuel equal to the number of keys is never exhausted. -/
def dijkstraLoop {D : Type} (ops : NumOps D) (w : String → String → D)
    (conns : String → List String) (endId : String) :
    ℕ → List String → (String → D) → (String → Option (Option String)) →
      (String → D) × (String → Option (Option String))
  | 0, _, dist, prev => (dist, prev)
  | _ + 1, [], dist, prev => (dist, prev)
  | fuel + 1, unvisited, dist, prev =>
    match findMin ops dist unvisited none ops.inf with
    | (none, _) => (dist, prev)
    | (some c, _) =>
      if ops.isInf (dist c) then (dist, prev)
      else
        let unvisited' := unvisited.erase c
        if c = endId then (dist, prev)
        else
          let dp := relax ops w c unvisited' (conns c) dist prev
          dijkstraLoop ops w conns endId fuel unvisited' dp.1 dp.2

/-- Predecessor walk of findPath.  The prev map distinguishes a missing
key (none, JS undefined: the while loop then never terminates, modelled
as overall none) from a null entry (some none: the walk stops). -/
def walkBack (prev : String → Option (Option String)) : ℕ → String → Option (List String)
  | 0, _ => none
  | fuel + 1, cur =>
    match prev cur with
    | none => none
    | some none => some [cur]
    | some (some p) =>
      match walkBack prev fuel p with
      | some path => some (path ++ [cur])
      | none => none

/-- Run the search given the numeric package and weight function, and
reconstruct the waypoint path. -/
def dijkstraOn {D : Type} (ops : NumOps D) (w : String → String → D)
    (nodes : List (String × PathNode)) (startId endId : String) : Option (List String) :=
  let keys := keysOf nodes
  let dist0 : String → D := fun s => if s = startId then ops.zero else ops.inf
  let prev0 : String → Option (Option String) := fun s =>
    if keys.contains s then some none else none
  let dp := dijkstraLoop ops w (connOf nodes) endId keys.length keys dist0 prev0
  walkBack dp.2 (keys.length + 1) endId

/-- Numeric package over the extended reals: the faithful embedding of
JS number arithmetic of the source (top is Infinity). -/
noncomputable def opsR : NumOps (WithTop ℝ) :=
  ⟨fun x y => decide (x < y), fun x y => x + y, (0 : ℝ), ⊤, fun x => decide (x = ⊤)⟩

/-- Edge weight of the source: Euclidean distance between the two looked
up node positions (only ever evaluated on present keys). -/
noncomputable def wR (nodes : List (String × PathNode)) (u v : String) : WithTop ℝ :=
  match nodes.lookup u, nodes.lookup v with
  | some nu, some nv => ((calculateDistance nu.position nv.position : ℝ) : WithTop ℝ)
  | _, _ => ⊤

/-- The waypoint path computed by the source findPath on a graph. -/
noncomputable def dijkstraPathOn (nodes : List (String × PathNode)) (startId endId : String) :
    Option (List String) :=
  dijkstraOn opsR (wR nodes) nodes startId endId

/-- Full findPath on a graph: search, then instruction synthesis. -/
noncomputable def findPathOn (nodes : List (String × PathNode)) (startId endId : String) :
    Option (List PathStep) :=
  (dijkstraPathOn nodes startId endId).bind (pathSteps nodes)

/-- The source findPath, fixed to the navigation graph. -/
noncomputable def findPath (startId endId : String) : Option (List PathStep) :=
  findPathOn navigationNodes startId endId

/-- Insert a string at the end of the list unless already present; this is
how a JS Set accumulates insertion-ordered distinct elements. -/
def pushUnique (l : List String) (s : String) : List String :=
  if s ∈ l then l else l ++ [s]

/-- The source getPathNodes: collect the from and to ids of all steps
into an insertion-ordered set and list it. -/
def getPathNodes (steps : List PathStep) : List String :=
  steps.foldl (fun nodes step => pushUnique (pushUnique nodes step.«from») step.«to») []

/-!  The computable twin.  Every edge weight of the dataset is of the
form k, k * sqrt 2 or k * sqrt 5 with k a natural number, so all numbers
met by the search live in Z + Z sqrt 2 + Z sqrt 5.  We represent the
value (a + b sqrt 2 + c sqrt 5) / 20 by the integer triple (a, b, c); the
global scale 20 keeps the rounded tenth-sums of C5 integral. -/

/-- Exact representation: the triple (a, b, c) denotes
(a + b sqrt 2 + c sqrt 5) / 20. -/
structure Q25 where
  a : ℤ
  b : ℤ
  c : ℤ
deriving DecidableEq

/-- Build a Q25 triple. -/
def q25 (a b c : ℤ) : Q25 := ⟨a, b, c⟩

/-- The real number denoted by a triple, before the global scale. -/
noncomputable def toR (t : Q25) : ℝ := (t.a : ℝ) + (t.b : ℝ) * Real.sqrt 2 + (t.c : ℝ) * Real.sqrt 5

def Q25.add (x y : Q25) : Q25 := ⟨x.a + y.a, x.b + y.b, x.c + y.c⟩

def Q25.sub (x y : Q25) : Q25 := ⟨x.a - y.a, x.b - y.b, x.c - y.c⟩

/-- Integer comparison as an Ordering. -/
def cmpz (x y : ℤ) : Ordering :=
  if x < y then .lt else if x = y then .eq else .gt

/-- Sign of p + q sqrt 2, decided exactly by squaring. -/
def sgn2 (p q : ℤ) : Ordering :=
  if 0 ≤ p then
    if 0 ≤ q then (if p = 0 ∧ q = 0 then .eq else .gt)
    else cmpz (p * p) (2 * (q * q))
  else
    if q ≤ 0 then .lt
    else cmpz (2 * (q * q)) (p * p)

/-- Sign of a + b sqrt 2 + c sqrt 5, decided exactly: compare a + b
sqrt 2 against -(c sqrt 5) and square once when the signs demand it; the
squared comparison is the sign of (a + b sqrt 2) squared minus 5 c
squared, again an element of Z + Z sqrt 2. -/
def sgn25 (t : Q25) : Ordering :=
  if sgn2 t.a t.b = .eq then cmpz t.c 0
  else if t.c = 0 then sgn2 t.a t.b
  else if sgn2 t.a t.b = .gt then
    if 0 < t.c then .gt
    else sgn2 (t.a * t.a + 2 * (t.b * t.b) - 5 * (t.c * t.c)) (2 * (t.a * t.b))
  else
    if t.c < 0 then .lt
    else (sgn2 (t.a * t.a + 2 * (t.b * t.b) - 5 * (t.c * t.c)) (2 * (t.a * t.b))).swap

/-- Exact strict comparison of two triples. -/
def ltQ (x y : Q25) : Bool := decide (sgn25 (y.sub x) = .gt)

/-- Exact non-strict comparison of two triples. -/
def leQ (x y : Q25) : Bool := !(decide (sgn25 (y.sub x) = .lt))

/-- Twin distance domain: none is Infinity. -/
abbrev DQ := Option Q25

/-- Strict comparison on the twin domain. -/
def ltD (x y : DQ) : Bool :=
  match x, y with
  | none, _ => false
  | some _, none => true
  | some x, some y => ltQ x y

/-- Addition on the twin domain. -/
def addD (x y : DQ) : DQ :=
  match x, y with
  | some x, some y => some (x.add y)
  | _, _ => none

/-- Numeric package of the computable twin. -/
def opsQ : NumOps DQ := ⟨ltD, addD, some (q25 0 0 0), none, Option.isNone⟩

/-- Squared Euclidean distance of two integer positions. -/
def sqdistZ (p q : ℤ × ℤ × ℤ) : ℤ :=
  (q.1 - p.1) ^ 2 + (q.2.1 - p.2.1) ^ 2 + (q.2.2 - p.2.2) ^ 2

/-- Decompose sqrt n as k, k sqrt 2 or k sqrt 5 scaled by 20, when n is
of one of the forms k * k, 2 k * k, 5 k * k. -/
def sqrtQOpt (n : ℤ) : Option Q25 :=
  (List.range (n.toNat + 1)).findSome? fun (k : ℕ) =>
    if (k : ℤ) * (k : ℤ) = n then some (q25 (20 * (k : ℤ)) 0 0)
    else if 2 * ((k : ℤ) * (k : ℤ)) = n then some (q25 0 (20 * (k : ℤ)) 0)
    else if 5 * ((k : ℤ) * (k : ℤ)) = n then some (q25 0 0 (20 * (k : ℤ)))
    else none

/-- Twin edge weight (scaled by 20); none on a failed lookup, mirroring
the real weight being top there. -/
def wQn (nodes : List (String × PathNode)) (u v : String) : DQ :=
  match nodes.lookup u, nodes.lookup v with
  | some nu, some nv => some ((sqrtQOpt (sqdistZ nu.position nv.position)).getD (q25 0 0 0))
  | _, _ => none

/-- Twin edge weight as a plain triple with junk on failure (only used on
edges, where the lookups succeed). -/
def wq20 (nodes : List (String × PathNode)) (u v : String) : Q25 :=
  (wQn nodes u v).getD (q25 0 0 0)

/-- The waypoint path computed by the twin. -/
def twinPathOn (nodes : List (String × PathNode)) (startId endId : String) :
    Option (List String) :=
  dijkstraOn opsQ (wQn nodes) nodes startId endId

/-- Abstraction map from the twin domain to the extended reals (the
scale 20 is divided out here). -/
noncomputable def absD (x : DQ) : WithTop ℝ :=
  match x with
  | none => ⊤
  | some t => ((toR t / 20 : ℝ) : WithTop ℝ)

/-- Real edge weight as a plain real with junk 0 on failure (only used on
edges); this is the per-edge cost summed by walkSum. -/
noncomputable def eDist (nodes : List (String × PathNode)) (u v : String) : ℝ :=
  match nodes.lookup u, nodes.lookup v with
  | some nu, some nv => calculateDistance nu.position nv.position
  | _, _ => 0

/-- A walk in a graph: nonempty, consecutive nodes adjacent, all nodes
present as keys. -/
def isWalkB (nodes : List (String × PathNode)) : List String → Bool
  | [] => false
  | [x] => decide (x ∈ keysOf nodes)
  | u :: v :: rest => adjB nodes u v && isWalkB nodes (v :: rest)

/-- Walk predicate used in the claims. -/
def IsWalk (nodes : List (String × PathNode)) (p : List String) : Prop :=
  isWalkB nodes p = true

/-- Two ids are connected when some walk joins them. -/
def Connected (nodes : List (String × PathNode)) (a b : String) : Prop :=
  ∃ p : List String, IsWalk nodes p ∧ p.head? = some a ∧ p.getLast? = some b

/-- Sum of the Euclidean edge lengths along a waypoint list. -/
noncomputable def walkSum (nodes : List (String × PathNode)) : List String → ℝ
  | [] => 0
  | [_] => 0
  | u :: v :: rest => eDist nodes u v + walkSum nodes (v :: rest)

/-- Twin sum of the scaled edge weights along a waypoint list. -/
def sumQ (nodes : List (String × PathNode)) : List String → Q25
  | [] => q25 0 0 0
  | [_] => q25 0 0 0
  | u :: v :: rest => (wq20 nodes u v).add (sumQ nodes (v :: rest))

/-- Sum of the rounded distance fields of an instruction list. -/
noncomputable def stepSum (steps : List PathStep) : ℝ :=
  (steps.map fun s => s.distance).sum

/-- Exact rounding to tenths: find the integer n with
n - 1/2 <= value/2 < n + 1/2 (the triple t denotes 20 d and n is the JS
round of 10 d); the search window comes from a rational approximation and
only soundness of the bracket is used. -/
def roundTenthQ (t : Q25) : Option ℤ :=
  let base : ℤ := (t.a + 1414 * t.b / 1000 + 2236 * t.c / 1000) / 2
  ((List.range 9).map fun i => base - 4 + (i : ℤ)).findSome? fun n =>
    if leQ (q25 (2 * n - 1) 0 0) t && ltQ t (q25 (2 * n + 1) 0 0) then some n else none

/-- Twin sum of rounded tenth-lengths along a waypoint list, scaled by
ten (so a result of some N denotes the step sum N / 10). -/
def roundSumN (nodes : List (String × PathNode)) : List String → Option ℤ
  | [] => some 0
  | [_] => some 0
  | u :: v :: rest =>
    match roundTenthQ (wq20 nodes u v), roundSumN nodes (v :: rest) with
    | some n, some m => some (n + m)
    | _, _ => none

/-- Certified shortest-distance table of the navigation graph, rows in
key order; only the closure properties checked below are relied on. -/
def dRows : List (String × List (String × Q25)) := [
  ("ENTRANCE", [("ENTRANCE", q25 0 0 0), ("HALL1_1", q25 40 0 0), ("HALL1_2", q25 0 0 40), ("STAIRS1", q25 40 20 0), ("ELEVATOR1", q25 0 20 40), ("B101", q25 40 0 0), ("11840", q25 0 0 80), ("CAFE", q25 20 0 40), ("STAIRS2", q25 60 20 0), ("ELEVATOR2", q25 20 20 40), ("HALL2_1", q25 60 40 0), ("HALL2_2", q25 60 40 20), ("A233", q25 100 40 0), ("C205", q25 60 60 0), ("LIB", q25 60 80 20)]),
  ("HALL1_1", [("ENTRANCE", q25 40 0 0), ("HALL1_1", q25 0 0 0), ("HALL1_2", q25 0 40 0), ("STAIRS1", q25 0 20 0), ("ELEVATOR1", q25 0 60 0), ("B101", q25 0 0 0), ("11840", q25 0 40 40), ("CAFE", q25 20 40 0), ("STAIRS2", q25 20 20 0), ("ELEVATOR2", q25 20 60 0), ("HALL2_1", q25 20 40 0), ("HALL2_2", q25 20 40 20), ("A233", q25 60 40 0), ("C205", q25 20 60 0), ("LIB", q25 20 80 20)]),
  ("HALL1_2", [("ENTRANCE", q25 40 40 0), ("HALL1_1", q25 0 40 0), ("HALL1_2", q25 0 0 0), ("STAIRS1", q25 0 60 0), ("ELEVATOR1", q25 0 20 0), ("B101", q25 0 40 0), ("11840", q25 0 0 40), ("CAFE", q25 20 0 0), ("STAIRS2", q25 20 60 0), ("ELEVATOR2", q25 20 20 0), ("HALL2_1", q25 20 80 0), ("HALL2_2", q25 20 20 20), ("A233", q25 60 80 0), ("C205", q25 20 100 0), ("LIB", q25 20 60 20)]),
  ("STAIRS1", [("ENTRANCE", q25 40 20 0), ("HALL1_1", q25 0 20 0), ("HALL1_2", q25 0 60 0), ("STAIRS1", q25 0 0 0), ("ELEVATOR1", q25 0 80 0), ("B101", q25 0 20 0), ("11840", q25 0 60 40), ("CAFE", q25 20 60 0), ("STAIRS2", q25 20 0 0), ("ELEVATOR2", q25 20 80 0), ("HALL2_1", q25 20 20 0), ("HALL2_2", q25 20 20 20), ("A233", q25 60 20 0), ("C205", q25 20 40 0), ("LIB", q25 20 60 20)]),
  ("ELEVATOR1", [("ENTRANCE", q25 40 60 0), ("HALL1_1", q25 0 60 0), ("HALL1_2", q25 0 20 0), ("STAIRS1", q25 0 80 0), ("ELEVATOR1", q25 0 0 0), ("B101", q25 0 60 0), ("11840", q25 0 20 40), ("CAFE", q25 20 20 0), ("STAIRS2", q25 20 80 0), ("ELEVATOR2", q25 20 0 0), ("HALL2_1", q25 20 0 40), ("HALL2_2", q25 20 0 20), ("A233", q25 60 0 40), ("C205", q25 20 20 40), ("LIB", q25 20 40 20)]),
  ("B101", [("ENTRANCE", q25 40 0 0), ("HALL1_1", q25 0 0 0), ("HALL1_2", q25 0 40 0), ("STAIRS1", q25 0 20 0), ("ELEVATOR1", q25 0 60 0), ("B101", q25 0 0 0), ("11840", q25 0 40 40), ("CAFE", q25 20 40 0), ("STAIRS2", q25 20 20 0), ("ELEVATOR2", q25 20 60 0), ("HALL2_1", q25 20 40 0), ("HALL2_2", q25 20 40 20), ("A233", q25 60 40 0), ("C205", q25 20 60 0), ("LIB", q25 20 80 20)]),
  ("11840", [("ENTRANCE", q25 40 40 40), ("HALL1_1", q25 0 40 40), ("HALL1_2", q25 0 0 40), ("STAIRS1", q25 0 60 40), ("ELEVATOR1", q25 0 20 40), ("B101", q25 0 40 40), ("11840", q25 0 0 0), ("CAFE", q25 20 0 40), ("STAIRS2", q25 20 60 40), ("ELEVATOR2", q25 20 20 40), ("HALL2_1", q25 20 80 40), ("HALL2_2", q25 20 20 60), ("A233", q25 60 80 40), ("C205", q25 20 100 40), ("LIB", q25 20 60 60)]),
  ("CAFE", [("ENTRANCE", q25 60 40 0), ("HALL1_1", q25 20 40 0), ("HALL1_2", q25 20 0 0), ("STAIRS1", q25 20 60 0), ("ELEVATOR1", q25 20 20 0), ("B101", q25 20 40 0), ("11840", q25 20 0 40), ("CAFE", q25 0 0 0), ("STAIRS2", q25 40 60 0), ("ELEVATOR2", q25 40 20 0), ("HALL2_1", q25 40 80 0), ("HALL2_2", q25 40 20 20), ("A233", q25 80 80 0), ("C205", q25 40 100 0), ("LIB", q25 40 60 20)]),
  ("STAIRS2", [("ENTRANCE", q25 60 20 0), ("HALL1_1", q25 20 20 0), ("HALL1_2", q25 20 60 0), ("STAIRS1", q25 20 0 0), ("ELEVATOR1", q25 20 80 0), ("B101", q25 20 20 0), ("11840", q25 20 60 40), ("CAFE", q25 40 60 0), ("STAIRS2", q25 0 0 0), ("ELEVATOR2", q25 0 20 40), ("HALL2_1", q25 0 20 0), ("HALL2_2", q25 0 20 20), ("A233", q25 40 20 0), ("C205", q25 0 40 0), ("LIB", q25 0 60 20)]),
  ("ELEVATOR2", [("ENTRANCE", q25 60 60 0), ("HALL1_1", q25 20 60 0), ("HALL1_2", q25 20 20 0), ("STAIRS1", q25 20 80 0), ("ELEVATOR1", q25 20 0 0), ("B101", q25 20 60 0), ("11840", q25 20 20 40), ("CAFE", q25 40 20 0), ("STAIRS2", q25 0 20 40), ("ELEVATOR2", q25 0 0 0), ("HALL2_1", q25 0 0 40), ("HALL2_2", q25 0 0 20), ("A233", q25 40 0 40), ("C205", q25 0 20 40), ("LIB", q25 0 40 20)]),
  ("HALL2_1", [("ENTRANCE", q25 60 40 0), ("HALL1_1", q25 20 40 0), ("HALL1_2", q25 20 80 0), ("STAIRS1", q25 20 20 0), ("ELEVATOR1", q25 20 0 40), ("B101", q25 20 40 0), ("11840", q25 20 80 40), ("CAFE", q25 40 80 0), ("STAIRS2", q25 0 20 0), ("ELEVATOR2", q25 0 0 40), ("HALL2_1", q25 0 0 0), ("HALL2_2", q25 0 0 20), ("A233", q25 40 0 0), ("C205", q25 0 20 0), ("LIB", q25 0 40 20)]),
  ("HALL2_2", [("ENTRANCE", q25 60 40 20), ("HALL1_1", q25 20 40 20), ("HALL1_2", q25 20 20 20), ("STAIRS1", q25 20 20 20), ("ELEVATOR1", q25 20 0 20), ("B101", q25 20 40 20), ("11840", q25 20 20 60), ("CAFE", q25 40 20 20), ("STAIRS2", q25 0 20 20), ("ELEVATOR2", q25 0 0 20), ("HALL2_1", q25 0 0 20), ("HALL2_2", q25 0 0 0), ("A233", q25 40 0 20), ("C205", q25 0 20 20), ("LIB", q25 0 40 0)]),
  ("A233", [("ENTRANCE", q25 100 40 0), ("HALL1_1", q25 60 40 0), ("HALL1_2", q25 60 80 0), ("STAIRS1", q25 60 20 0), ("ELEVATOR1", q25 60 0 40), ("B101", q25 60 40 0), ("11840", q25 60 80 40), ("CAFE", q25 80 80 0), ("STAIRS2", q25 40 20 0), ("ELEVATOR2", q25 40 0 40), ("HALL2_1", q25 40 0 0), ("HALL2_2", q25 40 0 20), ("A233", q25 0 0 0), ("C205", q25 40 20 0), ("LIB", q25 40 40 20)]),
  ("C205", [("ENTRANCE", q25 60 60 0), ("HALL1_1", q25 20 60 0), ("HALL1_2", q25 20 100 0), ("STAIRS1", q25 20 40 0), ("ELEVATOR1", q25 20 20 40), ("B101", q25 20 60 0), ("11840", q25 20 100 40), ("CAFE", q25 40 100 0), ("STAIRS2", q25 0 40 0), ("ELEVATOR2", q25 0 20 40), ("HALL2_1", q25 0 20 0), ("HALL2_2", q25 0 20 20), ("A233", q25 40 20 0), ("C205", q25 0 0 0), ("LIB", q25 0 60 20)]),
  ("LIB", [("ENTRANCE", q25 60 80 20), ("HALL1_1", q25 20 80 20), ("HALL1_2", q25 20 60 20), ("STAIRS1", q25 20 60 20), ("ELEVATOR1", q25 20 40 20), ("B101", q25 20 80 20), ("11840", q25 20 60 60), ("CAFE", q25 40 60 20), ("STAIRS2", q25 0 60 20), ("ELEVATOR2", q25 0 40 20), ("HALL2_1", q25 0 40 20), ("HALL2_2", q25 0 40 0), ("A233", q25 40 40 20), ("C205", q25 0 60 20), ("LIB", q25 0 0 0)])]

/-- Table lookup for the certified distances. -/
def Dq (a b : String) : Q25 :=
  (((dRows.lookup a).getD []).lookup b).getD (q25 0 0 0)

/-- Cheapest immediate excursion out of b and back (lower bound for any
closed walk at b), as a twin value with none when b has no neighbors. -/
def minLoopD (b : String) : DQ :=
  (connOf navigationNodes b).foldr
    (fun y m =>
      let cand : DQ := some ((wq20 navigationNodes b y).add (Dq y b))
      if ltD cand m then cand else m)
    none

/-- Deviation check along a returned path: every one-edge departure from
the path at any position, followed by any continuation, already costs at
least the rounded step sum (2 N is the scaled N / 10). -/
def devAll (b : String) (N : ℤ) : List String → Q25 → Bool
  | [], _ => true
  | [_], _ => true
  | u :: v :: rest, pre =>
    ((connOf navigationNodes u).all fun y =>
      decide (y = v) ||
        leQ (q25 (2 * N) 0 0) ((pre.add (wq20 navigationNodes u y)).add (Dq y b))) &&
    devAll b N (v :: rest) (pre.add (wq20 navigationNodes u v))

/-- Per-pair certificate for the optimality claim: the returned twin path
is well formed and its rounded length is below either the certified
distance or every bound on walks that differ from it. -/
def c5pairOk (a b : String) : Bool :=
  match twinPathOn navigationNodes a b with
  | none => false
  | some ret =>
    decide (ret.head? = some a) && decide (ret.getLast? = some b) &&
    isWalkB navigationNodes ret && decide ret.Nodup &&
    match roundSumN navigationNodes ret with
    | none => false
    | some N =>
      leQ (q25 (2 * N) 0 0) (Dq a b) ||
      (devAll b N ret (q25 0 0 0) &&
        match minLoopD b with
        | none => true
        | some m => leQ (q25 (2 * N) 0 0) ((sumQ navigationNodes ret).add m))

/-- Keep-first deduplication: the canonical first-seen order of a list
(specification function for getPathNodes). -/
def firstSeen : List String → List String
  | [] => []
  | x :: xs => x :: firstSeen (xs.filter fun y => y ≠ x)
termination_by l => l.length
decreasing_by
  simp only [List.length_cons]
  exact Nat.lt_succ_of_le (List.length_filter_le _ _)

/-- The eight sector conditions of the bearing classifier, indexed in
source order. -/
def sectorCondN : ℕ → ℝ → Prop
  | 0, a => -22.5 ≤ a ∧ a < 22.5
  | 1, a => 22.5 ≤ a ∧ a < 67.5
  | 2, a => 67.5 ≤ a ∧ a < 112.5
  | 3, a => 112.5 ≤ a ∧ a < 157.5
  | 4, a => 157.5 ≤ a ∨ a < -157.5
  | 5, a => -157.5 ≤ a ∧ a < -112.5
  | 6, a => -112.5 ≤ a ∧ a < -67.5
  | 7, a => -67.5 ≤ a ∧ a < -22.5
  | _ + 8, _ => False

/-- The eight sector labels, indexed in source order. -/
def sectorLabel : ℕ → String
  | 0 => "east"
  | 1 => "northeast"
  | 2 => "north"
  | 3 => "northwest"
  | 4 => "west"
  | 5 => "southwest"
  | 6 => "south"
  | 7 => "southeast"
  | _ + 8 => ""

/-- A two-key graph with no edges, used for the disconnected-graph claim. -/
def graph2 : List (String × PathNode) := [
  ("A", ⟨"A", (0, 0, 0), 1, .room, []⟩),
  ("B", ⟨"B", (5, 0, 0), 1, .room, []⟩)]

/-- Instruction list of a path through total lookups (equal to pathSteps
when every node is present). -/
noncomputable def stepsOf (nodes : List (String × PathNode)) (l : List String) : List PathStep :=
  (l.zip l.tail).map fun p =>
    mkStep ((nodes.lookup p.1).getD default) ((nodes.lookup p.2).getD default)

/-! Soundness of the exact sign computations. -/

theorem rt2_pos : 0 < Real.sqrt 2 := Real.sqrt_pos.mpr (by norm_num)

theorem rt5_pos : 0 < Real.sqrt 5 := Real.sqrt_pos.mpr (by norm_num)

theorem rt2_sq : Real.sqrt 2 ^ 2 = 2 := Real.sq_sqrt (by norm_num)

theorem rt5_sq : Real.sqrt 5 ^ 2 = 5 := Real.sq_sqrt (by norm_num)

theorem cmpz_lt {x y : ℤ} : cmpz x y = .lt ↔ x < y := by
  unfold cmpz
  split_ifs with h1 h2 <;> simp_all <;> omega

theorem cmpz_eq {x y : ℤ} : cmpz x y = .eq ↔ x = y := by
  unfold cmpz
  split_ifs with h1 h2 <;> simp_all <;> omega

theorem cmpz_gt {x y : ℤ} : cmpz x y = .gt ↔ y < x := by
  unfold cmpz
  split_ifs with h1 h2 <;> simp_all <;> omega

theorem sgn2_lt_sound {p q : ℤ} (h : sgn2 p q = .lt) :
    (p : ℝ) + (q : ℝ) * Real.sqrt 2 < 0 := by
  unfold sgn2 at h
  split_ifs at h with h1 h2 h3 h4
  · rw [cmpz_lt] at h
    have hp : (0 : ℝ) ≤ (p : ℝ) := by exact_mod_cast h1
    have hq : (q : ℝ) < 0 := by exact_mod_cast lt_of_not_le h2
    have hlt : (p : ℝ) * p < 2 * ((q : ℝ) * q) := by exact_mod_cast h
    have hpos : 0 < (p : ℝ) - (q : ℝ) * Real.sqrt 2 := by
      nlinarith [mul_pos (neg_pos.mpr hq) rt2_pos]
    nlinarith [rt2_sq, hpos, hlt]
  · have hp : (p : ℝ) < 0 := by exact_mod_cast lt_of_not_le h1
    have hq : (q : ℝ) ≤ 0 := by exact_mod_cast h4
    nlinarith [rt2_pos]
  · rw [cmpz_lt] at h
    have hp : (p : ℝ) < 0 := by exact_mod_cast lt_of_not_le h1
    have hq : 0 < (q : ℝ) := by exact_mod_cast lt_of_not_le h4
    have hlt : 2 * ((q : ℝ) * q) < (p : ℝ) * p := by exact_mod_cast h
    nlinarith [rt2_sq, rt2_pos, mul_pos hq rt2_pos]

theorem sgn2_eq_sound {p q : ℤ} (h : sgn2 p q = .eq) :
    (p : ℝ) + (q : ℝ) * Real.sqrt 2 = 0 := by
  unfold sgn2 at h
  split_ifs at h with h1 h2 h3 h4
  · obtain ⟨hp, hq⟩ := h3
    subst hp; subst hq; simp
  · rw [cmpz_eq] at h
    have hp : (0 : ℝ) ≤ (p : ℝ) := by exact_mod_cast h1
    have hq : (q : ℝ) < 0 := by exact_mod_cast lt_of_not_le h2
    have heq : (p : ℝ) * p = 2 * ((q : ℝ) * q) := by exact_mod_cast h
    have hpos : 0 < (p : ℝ) - (q : ℝ) * Real.sqrt 2 := by
      nlinarith [mul_pos (neg_pos.mpr hq) rt2_pos]
    have hprod : ((p : ℝ) + (q : ℝ) * Real.sqrt 2) * ((p : ℝ) - (q : ℝ) * Real.sqrt 2) = 0 := by
      have hid : ((p : ℝ) + (q : ℝ) * Real.sqrt 2) * ((p : ℝ) - (q : ℝ) * Real.sqrt 2)
          = (p : ℝ) * p - ((q : ℝ) * q) * Real.sqrt 2 ^ 2 := by ring
      rw [hid, rt2_sq]
      linarith [heq]
    rcases mul_eq_zero.mp hprod with h0 | h0
    · exact h0
    · exact absurd h0 (ne_of_gt hpos)
  · rw [cmpz_eq] at h
    have hp : (p : ℝ) < 0 := by exact_mod_cast lt_of_not_le h1
    have hq : 0 < (q : ℝ) := by exact_mod_cast lt_of_not_le h4
    have heq : 2 * ((q : ℝ) * q) = (p : ℝ) * p := by exact_mod_cast h
    have hpos : 0 < -(p : ℝ) + (q : ℝ) * Real.sqrt 2 := by
      nlinarith [mul_pos hq rt2_pos]
    have hprod : ((p : ℝ) + (q : ℝ) * Real.sqrt 2) * (-(p : ℝ) + (q : ℝ) * Real.sqrt 2) = 0 := by
      have hid : ((p : ℝ) + (q : ℝ) * Real.sqrt 2) * (-(p : ℝ) + (q : ℝ) * Real.sqrt 2)
          = ((q : ℝ) * q) * Real.sqrt 2 ^ 2 - (p : ℝ) * p := by ring
      rw [hid, rt2_sq]
      linarith [heq]
    rcases mul_eq_zero.mp hprod with h0 | h0
    · exact h0
    · exact absurd h0 (ne_of_gt hpos)

theorem sgn2_gt_sound {p q : ℤ} (h : sgn2 p q = .gt) :
    0 < (p : ℝ) + (q : ℝ) * Real.sqrt 2 := by
  unfold sgn2 at h
  split_ifs at h with h1 h2 h3 h4
  · push_neg at h3
    have hp : (0 : ℝ) ≤ (p : ℝ) := by exact_mod_cast h1
    have hq : (0 : ℝ) ≤ (q : ℝ) := by exact_mod_cast h2
    rcases eq_or_lt_of_le h1 with hp0 | hp0
    · have hq0 : q ≠ 0 := h3 hp0.symm
      have hqpos : (0 : ℝ) < (q : ℝ) := by
        have hq2 : 0 < q := lt_of_le_of_ne h2 (Ne.symm hq0)
        exact_mod_cast hq2
      nlinarith [mul_pos hqpos rt2_pos]
    · have hppos : (0 : ℝ) < (p : ℝ) := by exact_mod_cast hp0
      nlinarith [mul_nonneg hq (le_of_lt rt2_pos)]
  · rw [cmpz_gt] at h
    have hp : (0 : ℝ) ≤ (p : ℝ) := by exact_mod_cast h1
    have hq : (q : ℝ) < 0 := by exact_mod_cast lt_of_not_le h2
    have hlt : 2 * ((q : ℝ) * q) < (p : ℝ) * p := by exact_mod_cast h
    nlinarith [rt2_sq, mul_pos (neg_pos.mpr hq) rt2_pos]
  · rw [cmpz_gt] at h
    have hp : (p : ℝ) < 0 := by exact_mod_cast lt_of_not_le h1
    have hq : 0 < (q : ℝ) := by exact_mod_cast lt_of_not_le h4
    have hlt : (p : ℝ) * p < 2 * ((q : ℝ) * q) := by exact_mod_cast h
    nlinarith [rt2_sq, rt2_pos, mul_pos hq rt2_pos]

theorem sgn2_lt_iff {p q : ℤ} : sgn2 p q = .lt ↔ (p : ℝ) + (q : ℝ) * Real.sqrt 2 < 0 := by
  constructor
  · exact sgn2_lt_sound
  · intro hv
    cases h : sgn2 p q
    · rfl
    · exact absurd (sgn2_eq_sound h) (by linarith)
    · exact absurd (sgn2_gt_sound h) (by linarith)

theorem sgn2_eq_iff {p q : ℤ} : sgn2 p q = .eq ↔ (p : ℝ) + (q : ℝ) * Real.sqrt 2 = 0 := by
  constructor
  · exact sgn2_eq_sound
  · intro hv
    cases h : sgn2 p q
    · exact absurd (sgn2_lt_sound h) (by linarith)
    · rfl
    · exact absurd (sgn2_gt_sound h) (by linarith)

theorem sgn2_gt_iff {p q : ℤ} : sgn2 p q = .gt ↔ 0 < (p : ℝ) + (q : ℝ) * Real.sqrt 2 := by
  constructor
  · exact sgn2_gt_sound
  · intro hv
    cases h : sgn2 p q
    · exact absurd (sgn2_lt_sound h) (by linarith)
    · exact absurd (sgn2_eq_sound h) (by linarith)
    · rfl

theorem ordering_swap_eq_lt {o : Ordering} : o.swap = .lt ↔ o = .gt := by
  cases o <;> decide

theorem ordering_swap_eq_eq {o : Ordering} : o.swap = .eq ↔ o = .eq := by
  cases o <;> decide

theorem ordering_swap_eq_gt {o : Ordering} : o.swap = .gt ↔ o = .lt := by
  cases o <;> decide

theorem ordering_is_lt {o : Ordering} (h1 : o ≠ .eq) (h2 : o ≠ .gt) : o = .lt := by
  cases o
  · rfl
  · exact absurd rfl h1
  · exact absurd rfl h2

/-- The squared comparison value of sgn25 factors as the product of the
represented value and its sqrt 5 conjugate. -/
theorem q25_prod_identity (a b c : ℤ) :
    ((a * a + 2 * (b * b) - 5 * (c * c) : ℤ) : ℝ) +
        ((2 * (a * b) : ℤ) : ℝ) * Real.sqrt 2
      = ((a : ℝ) + (b : ℝ) * Real.sqrt 2 + (c : ℝ) * Real.sqrt 5) *
        ((a : ℝ) + (b : ℝ) * Real.sqrt 2 - (c : ℝ) * Real.sqrt 5) := by
  have h2 := rt2_sq
  have h5 := rt5_sq
  push_cast
  linear_combination (-(b : ℝ) ^ 2) * h2 + ((c : ℝ) ^ 2) * h5

theorem sgn25_lt_sound {t : Q25} (h : sgn25 t = .lt) : toR t < 0 := by
  obtain ⟨a, b, c⟩ := t
  unfold sgn25 at h
  unfold toR
  simp only at h ⊢
  split_ifs at h with hs hc0 hg hcpos hclt
  · have hX := sgn2_eq_sound hs
    have hc : (c : ℝ) < 0 := by exact_mod_cast cmpz_lt.mp h
    have := mul_neg_of_neg_of_pos hc rt5_pos
    linarith
  · have hX := sgn2_lt_sound h
    subst hc0
    push_cast
    linarith
  · -- sgn2 = .gt, c < 0, squared comparison is .lt
    have hcneg : c < 0 := by omega
    have hX := sgn2_gt_sound hg
    have hw := sgn2_lt_sound h
    rw [q25_prod_identity] at hw
    have hcR : (c : ℝ) < 0 := by exact_mod_cast hcneg
    have hconj : 0 < (a : ℝ) + (b : ℝ) * Real.sqrt 2 - (c : ℝ) * Real.sqrt 5 := by
      nlinarith [mul_pos (neg_pos.mpr hcR) rt5_pos]
    nlinarith [hw, hconj]
  · -- sgn2 = .lt, c < 0
    have hs2 : sgn2 a b = .lt := ordering_is_lt hs hg
    have hX := sgn2_lt_sound hs2
    have hcR : (c : ℝ) < 0 := by exact_mod_cast hclt
    have := mul_neg_of_neg_of_pos hcR rt5_pos
    linarith
  · -- sgn2 = .lt, c > 0, swapped squared comparison is .lt
    have hs2 : sgn2 a b = .lt := ordering_is_lt hs hg
    have hX := sgn2_lt_sound hs2
    have hcpos2 : 0 < c := by omega
    have hcR : (0 : ℝ) < (c : ℝ) := by exact_mod_cast hcpos2
    have hw := sgn2_gt_sound (ordering_swap_eq_lt.mp h)
    rw [q25_prod_identity] at hw
    have hconj : (a : ℝ) + (b : ℝ) * Real.sqrt 2 - (c : ℝ) * Real.sqrt 5 < 0 := by
      nlinarith [mul_pos hcR rt5_pos]
    nlinarith [hw, hconj]

theorem sgn25_eq_sound {t : Q25} (h : sgn25 t = .eq) : toR t = 0 := by
  obtain ⟨a, b, c⟩ := t
  unfold sgn25 at h
  unfold toR
  simp only at h ⊢
  split_ifs at h with hs hc0 hg hcpos hclt
  · have hX := sgn2_eq_sound hs
    have hc : (c : ℝ) = 0 := by exact_mod_cast cmpz_eq.mp h
    rw [hc]
    linarith
  · have hX := sgn2_eq_sound h
    subst hc0
    push_cast
    linarith
  · -- sgn2 = .gt, c < 0, squared comparison is .eq
    have hcneg : c < 0 := by omega
    have hX := sgn2_gt_sound hg
    have hw := sgn2_eq_sound h
    rw [q25_prod_identity] at hw
    have hcR : (c : ℝ) < 0 := by exact_mod_cast hcneg
    have hconj : 0 < (a : ℝ) + (b : ℝ) * Real.sqrt 2 - (c : ℝ) * Real.sqrt 5 := by
      nlinarith [mul_pos (neg_pos.mpr hcR) rt5_pos]
    rcases mul_eq_zero.mp hw with h0 | h0
    · exact h0
    · exact absurd h0 (ne_of_gt hconj)
  · -- sgn2 = .lt, c > 0, swapped squared comparison is .eq
    have hs2 : sgn2 a b = .lt := ordering_is_lt hs hg
    have hX := sgn2_lt_sound hs2
    have hcpos2 : 0 < c := by omega
    have hcR : (0 : ℝ) < (c : ℝ) := by exact_mod_cast hcpos2
    have hw := sgn2_eq_sound (ordering_swap_eq_eq.mp h)
    rw [q25_prod_identity] at hw
    have hconj : (a : ℝ) + (b : ℝ) * Real.sqrt 2 - (c : ℝ) * Real.sqrt 5 < 0 := by
      nlinarith [mul_pos hcR rt5_pos]
    rcases mul_eq_zero.mp hw with h0 | h0
    · exact h0
    · exact absurd h0 (ne_of_lt hconj)

theorem sgn25_gt_sound {t : Q25} (h : sgn25 t = .gt) : 0 < toR t := by
  obtain ⟨a, b, c⟩ := t
  unfold sgn25 at h
  unfold toR
  simp only at h ⊢
  split_ifs at h with hs hc0 hg hcpos hclt
  · have hX := sgn2_eq_sound hs
    have hc : (0 : ℝ) < (c : ℝ) := by exact_mod_cast cmpz_gt.mp h
    have := mul_pos hc rt5_pos
    linarith
  · have hX := sgn2_gt_sound h
    subst hc0
    push_cast
    linarith
  · -- sgn2 = .gt, 0 < c
    have hX := sgn2_gt_sound hg
    have hcR : (0 : ℝ) < (c : ℝ) := by exact_mod_cast hcpos
    have := mul_pos hcR rt5_pos
    linarith
  · -- sgn2 = .gt, c < 0, squared comparison is .gt
    have hcneg : c < 0 := by omega
    have hX := sgn2_gt_sound hg
    have hw := sgn2_gt_sound h
    rw [q25_prod_identity] at hw
    have hcR : (c : ℝ) < 0 := by exact_mod_cast hcneg
    have hconj : 0 < (a : ℝ) + (b : ℝ) * Real.sqrt 2 - (c : ℝ) * Real.sqrt 5 := by
      nlinarith [mul_pos (neg_pos.mpr hcR) rt5_pos]
    nlinarith [hw, hconj]
  · -- sgn2 = .lt, c > 0, swapped squared comparison is .gt
    have hs2 : sgn2 a b = .lt := ordering_is_lt hs hg
    have hX := sgn2_lt_sound hs2
    have hcpos2 : 0 < c := by omega
    have hcR : (0 : ℝ) < (c : ℝ) := by exact_mod_cast hcpos2
    have hw := sgn2_lt_sound (ordering_swap_eq_gt.mp h)
    rw [q25_prod_identity] at hw
    have hconj : (a : ℝ) + (b : ℝ) * Real.sqrt 2 - (c : ℝ) * Real.sqrt 5 < 0 := by
      nlinarith [mul_pos hcR rt5_pos]
    nlinarith [hw, hconj]

theorem sgn25_lt_iff {t : Q25} : sgn25 t = .lt ↔ toR t < 0 := by
  constructor
  · exact sgn25_lt_sound
  · intro hv
    cases h : sgn25 t
    · rfl
    · exact absurd (sgn25_eq_sound h) (by linarith)
    · exact absurd (sgn25_gt_sound h) (by linarith)

theorem sgn25_eq_iff {t : Q25} : sgn25 t = .eq ↔ toR t = 0 := by
  constructor
  · exact sgn25_eq_sound
  · intro hv
    cases h : sgn25 t
    · exact absurd (sgn25_lt_sound h) (by linarith)
    · rfl
    · exact absurd (sgn25_gt_sound h) (by linarith)

theorem sgn25_gt_iff {t : Q25} : sgn25 t = .gt ↔ 0 < toR t := by
  constructor
  · exact sgn25_gt_sound
  · intro hv
    cases h : sgn25 t
    · exact absurd (sgn25_lt_sound h) (by linarith)
    · exact absurd (sgn25_eq_sound h) (by linarith)
    · rfl

theorem toR_sub (x y : Q25) : toR (x.sub y) = toR x - toR y := by
  obtain ⟨a, b, c⟩ := x
  obtain ⟨d, e, f⟩ := y
  unfold toR Q25.sub
  push_cast
  ring

theorem toR_add (x y : Q25) : toR (x.add y) = toR x + toR y := by
  obtain ⟨a, b, c⟩ := x
  obtain ⟨d, e, f⟩ := y
  unfold toR Q25.add
  push_cast
  ring

theorem ltQ_iff {x y : Q25} : ltQ x y = true ↔ toR x < toR y := by
  unfold ltQ
  rw [decide_eq_true_iff, sgn25_gt_iff, toR_sub]
  constructor <;> intro <;> linarith

theorem leQ_iff {x y : Q25} : leQ x y = true ↔ toR x ≤ toR y := by
  unfold leQ
  rw [Bool.not_eq_true', decide_eq_false_iff_not]
  rw [not_congr sgn25_lt_iff, toR_sub]
  constructor <;> intro h <;> [linarith [not_lt.mp h]; exact not_lt.mpr (by linarith)]

theorem ltQ_iff_false {x y : Q25} : ltQ x y = false ↔ toR y ≤ toR x := by
  rw [← Bool.not_eq_true, not_congr ltQ_iff]
  exact not_lt

/-! Bridge: the real instance and the computable twin of the search take
the same branches everywhere, hence return the same waypoint path. -/

theorem absD_zero : absD (some (q25 0 0 0)) = ((0 : ℝ) : WithTop ℝ) := by
  unfold absD toR q25
  norm_num

theorem ltD_absD (x y : DQ) : ltD x y = decide (absD x < absD y) := by
  cases x with
  | none =>
    cases y with
    | none => simp [ltD, absD, lt_irrefl]
    | some t => simp [ltD, absD, not_top_lt]
  | some s =>
    cases y with
    | none => simp [ltD, absD, WithTop.coe_lt_top]
    | some t =>
      show ltQ s t = decide _
      cases hb : ltQ s t
      · have hle := ltQ_iff_false.mp hb
        symm
        rw [decide_eq_false_iff_not]
        unfold absD
        rw [WithTop.coe_lt_coe]
        rw [not_lt]
        exact div_le_div_of_nonneg_right hle (by norm_num) |>.trans_eq rfl
      · have hlt := ltQ_iff.mp hb
        symm
        rw [decide_eq_true_iff]
        unfold absD
        rw [WithTop.coe_lt_coe]
        exact div_lt_div_of_pos_right hlt (by norm_num)

theorem absD_some (t : Q25) : absD (some t) = ((toR t / 20 : ℝ) : WithTop ℝ) := rfl

theorem absD_none : absD none = (⊤ : WithTop ℝ) := rfl

theorem addD_absD (x y : DQ) : absD (addD x y) = absD x + absD y := by
  cases x with
  | none => cases y <;> simp [addD, absD_none, absD]
  | some s =>
    cases y with
    | none => simp [addD, absD_none, absD]
    | some t =>
      show absD (some (s.add t)) = _
      rw [absD_some, absD_some, absD_some, ← WithTop.coe_add]
      congr 1
      rw [toR_add]
      ring

theorem isInf_absD (x : DQ) : x.isNone = decide (absD x = ⊤) := by
  cases x with
  | none => simp [absD]
  | some t => simp [absD]

theorem findMin_bridge (dQ : String → DQ) :
    ∀ (l : List String) (cur : Option String) (m : DQ),
      findMin opsR (fun s => absD (dQ s)) l cur (absD m)
        = ((findMin opsQ dQ l cur m).1, absD (findMin opsQ dQ l cur m).2) := by
  intro l
  induction l with
  | nil => intro cur m; rfl
  | cons n rest ih =>
    intro cur m
    show findMin opsR _ (n :: rest) cur (absD m) = _
    unfold findMin
    have hcmp : opsR.ltb (absD (dQ n)) (absD m) = opsQ.ltb (dQ n) m := by
      show decide _ = ltD (dQ n) m
      rw [ltD_absD]
    rw [hcmp]
    cases hb : opsQ.ltb (dQ n) m
    · simp only [Bool.false_eq_true, if_false]
      exact ih cur m
    · simp only [if_true]
      exact ih (some n) (dQ n)

theorem relax_bridge (wq : String → String → DQ) (wr : String → String → WithTop ℝ)
    (current : String) (unvisited : List String) :
    ∀ (nbs : List String) (dQ : String → DQ) (pv : String → Option (Option String)),
      (∀ nb ∈ nbs, wr current nb = absD (wq current nb)) →
      relax opsR wr current unvisited nbs (fun s => absD (dQ s)) pv
        = ((fun s => absD ((relax opsQ wq current unvisited nbs dQ pv).1 s)),
           (relax opsQ wq current unvisited nbs dQ pv).2) := by
  intro nbs
  induction nbs with
  | nil => intro dQ pv _; rfl
  | cons nb rest ih =>
    intro dQ pv hW
    have hWnb : wr current nb = absD (wq current nb) := hW nb (by simp)
    have hWrest : ∀ x ∈ rest, wr current x = absD (wq current x) := by
      intro x hx; exact hW x (by simp [hx])
    unfold relax
    cases hc : unvisited.contains nb
    · simp only [Bool.false_eq_true, if_false]
      exact ih dQ pv hWrest
    · simp only [if_true]
      have hnd : opsR.add ((fun s => absD (dQ s)) current) (wr current nb)
          = absD (opsQ.add (dQ current) (wq current nb)) := by
        show (absD (dQ current)) + (wr current nb) = absD (addD (dQ current) (wq current nb))
        rw [addD_absD, hWnb]
      rw [hnd]
      have hcmp : opsR.ltb (absD (opsQ.add (dQ current) (wq current nb)))
          ((fun s => absD (dQ s)) nb) = opsQ.ltb (opsQ.add (dQ current) (wq current nb)) (dQ nb) := by
        show decide _ = ltD _ (dQ nb)
        rw [ltD_absD]
      rw [hcmp]
      cases hb : opsQ.ltb (opsQ.add (dQ current) (wq current nb)) (dQ nb)
      · simp only [Bool.false_eq_true, if_false]
        exact ih dQ pv hWrest
      · simp only [if_true]
        have hfun : (fun s => if s = nb then absD (opsQ.add (dQ current) (wq current nb))
              else (fun s => absD (dQ s)) s)
            = fun s => absD ((fun s => if s = nb then opsQ.add (dQ current) (wq current nb)
              else dQ s) s) := by
          funext s
          by_cases hs : s = nb <;> simp [hs]
        rw [hfun]
        exact ih _ _ hWrest

theorem dijkstraLoop_bridge (wq : String → String → DQ) (wr : String → String → WithTop ℝ)
    (conns : String → List String) (endId : String)
    (hW : ∀ u v, v ∈ conns u → wr u v = absD (wq u v)) :
    ∀ (fuel : ℕ) (unvisited : List String) (dQ : String → DQ)
      (pv : String → Option (Option String)),
      dijkstraLoop opsR wr conns endId fuel unvisited (fun s => absD (dQ s)) pv
        = ((fun s => absD ((dijkstraLoop opsQ wq conns endId fuel unvisited dQ pv).1 s)),
           (dijkstraLoop opsQ wq conns endId fuel unvisited dQ pv).2) := by
  intro fuel
  induction fuel with
  | zero => intro unvisited dQ pv; rfl
  | succ fuel ih =>
    intro unvisited dQ pv
    cases unvisited with
    | nil => rfl
    | cons u0 urest =>
      simp only [dijkstraLoop]
      have h1 : findMin opsR (fun s => absD (dQ s)) (u0 :: urest) none opsR.inf
          = ((findMin opsQ dQ (u0 :: urest) none opsQ.inf).1,
             absD (findMin opsQ dQ (u0 :: urest) none opsQ.inf).2) :=
        findMin_bridge dQ (u0 :: urest) none opsQ.inf
      rw [h1]
      rcases hfm : findMin opsQ dQ (u0 :: urest) none opsQ.inf with ⟨cur, m⟩
      simp only [hfm]
      cases cur with
      | none => rfl
      | some c =>
        have hii : opsR.isInf (absD (dQ c)) = opsQ.isInf (dQ c) := by
          show decide _ = (dQ c).isNone
          rw [isInf_absD]
        simp only [hii]
        cases hicase : opsQ.isInf (dQ c)
        · simp only [Bool.false_eq_true, if_false]
          by_cases hce : c = endId
          · simp only [hce, if_true]
          · simp only [hce, if_false]
            have hWc : ∀ nb ∈ conns c, wr c nb = absD (wq c nb) := fun nb hnb => hW c nb hnb
            rw [relax_bridge wq wr c ((u0 :: urest).erase c) (conns c) dQ pv hWc]
            exact ih ((u0 :: urest).erase c) _ _
        · simp only [if_true]

theorem dijkstraOn_bridge (nodes : List (String × PathNode))
    (hW : ∀ u v, v ∈ connOf nodes u → wR nodes u v = absD (wQn nodes u v))
    (startId endId : String) :
    dijkstraPathOn nodes startId endId = twinPathOn nodes startId endId := by
  unfold dijkstraPathOn twinPathOn dijkstraOn
  have hinit : (fun s => if s = startId then opsR.zero else opsR.inf)
      = fun s => absD ((fun s => if s = startId then opsQ.zero else opsQ.inf) s) := by
    funext s
    by_cases hs : s = startId
    · simp only [hs, if_true]
      exact absD_zero.symm
    · simp only [hs, if_false]
      rfl
  show walkBack (dijkstraLoop opsR (wR nodes) (connOf nodes) endId (keysOf nodes).length
      (keysOf nodes) (fun s => if s = startId then opsR.zero else opsR.inf)
      (fun s => if (keysOf nodes).contains s = true then some none else none)).2
      ((keysOf nodes).length + 1) endId
    = walkBack (dijkstraLoop opsQ (wQn nodes) (connOf nodes) endId (keysOf nodes).length
      (keysOf nodes) (fun s => if s = startId then opsQ.zero else opsQ.inf)
      (fun s => if (keysOf nodes).contains s = true then some none else none)).2
      ((keysOf nodes).length + 1) endId
  rw [hinit, dijkstraLoop_bridge (wQn nodes) (wR nodes) (connOf nodes) endId hW]

theorem lookup_mem_keys {nodes : List (String × PathNode)} {u : String} {n : PathNode}
    (h : nodes.lookup u = some n) : u ∈ keysOf nodes := by
  induction nodes with
  | nil => simp [List.lookup] at h
  | cons e rest ih =>
    obtain ⟨k, v⟩ := e
    simp only [List.lookup] at h
    cases hbk : u == k with
    | true =>
      have hk : u = k := by simpa using hbk
      simp [keysOf, hk]
    | false =>
      rw [hbk] at h
      have h2 : List.lookup u rest = some n := h
      simp only [keysOf, List.map_cons, List.mem_cons]
      exact Or.inr (ih h2)

theorem mem_keys_lookup {nodes : List (String × PathNode)} {u : String}
    (h : u ∈ keysOf nodes) : ∃ n, nodes.lookup u = some n := by
  induction nodes with
  | nil => simp [keysOf] at h
  | cons e rest ih =>
    obtain ⟨k, v⟩ := e
    simp only [List.lookup]
    cases hbk : u == k with
    | true => exact ⟨v, rfl⟩
    | false =>
      show ∃ n, List.lookup u rest = some n
      apply ih
      have hne : ¬u = k := by simpa using hbk
      simp only [keysOf, List.map_cons, List.mem_cons] at h
      exact h.resolve_left hne

theorem sqrtQOpt_sound {n : ℤ} {t : Q25} (h : sqrtQOpt n = some t) :
    toR t = 20 * Real.sqrt (n : ℝ) := by
  unfold sqrtQOpt at h
  obtain ⟨k, _, hk⟩ := List.exists_of_findSome?_eq_some h
  split_ifs at hk with h1 h2 h3
  · have ht : t = q25 (20 * k) 0 0 := by
      injection hk with hk0
      exact hk0.symm
    subst ht
    have hn : (n : ℝ) = (k : ℝ) * (k : ℝ) := by exact_mod_cast h1.symm
    rw [hn, Real.sqrt_mul_self (Nat.cast_nonneg k)]
    unfold toR q25
    push_cast
    ring
  · have ht : t = q25 0 (20 * k) 0 := by
      injection hk with hk0
      exact hk0.symm
    subst ht
    have hn : (n : ℝ) = 2 * ((k : ℝ) * (k : ℝ)) := by exact_mod_cast h2.symm
    rw [hn, Real.sqrt_mul (show (0 : ℝ) ≤ 2 by norm_num) ((k : ℝ) * (k : ℝ)),
      Real.sqrt_mul_self (Nat.cast_nonneg k)]
    unfold toR q25
    push_cast
    ring
  · have ht : t = q25 0 0 (20 * k) := by
      injection hk with hk0
      exact hk0.symm
    subst ht
    have hn : (n : ℝ) = 5 * ((k : ℝ) * (k : ℝ)) := by exact_mod_cast h3.symm
    rw [hn, Real.sqrt_mul (show (0 : ℝ) ≤ 5 by norm_num) ((k : ℝ) * (k : ℝ)),
      Real.sqrt_mul_self (Nat.cast_nonneg k)]
    unfold toR q25
    push_cast
    ring

theorem calculateDistance_eq_sqrt (p q : ℤ × ℤ × ℤ) :
    calculateDistance p q = Real.sqrt ((sqdistZ p q : ℤ) : ℝ) := by
  unfold calculateDistance sqdistZ
  congr 1
  push_cast
  ring

/-- Every connection of the navigation graph refers to a present key. -/
theorem nav_conn_closed :
    ∀ u ∈ keysOf navigationNodes, ∀ v ∈ connOf navigationNodes u,
      v ∈ keysOf navigationNodes := by decide

/-- Every edge of the navigation graph has a squared length of the form
k * k, 2 k * k or 5 k * k, so its weight is exactly representable. -/
theorem nav_edges_representable :
    ∀ u ∈ keysOf navigationNodes, ∀ v ∈ connOf navigationNodes u,
      (sqrtQOpt (sqdistZ (((navigationNodes.lookup u).getD default).position)
        (((navigationNodes.lookup v).getD default).position))).isSome = true := by decide

theorem nav_wR_absD : ∀ u v, v ∈ connOf navigationNodes u →
    wR navigationNodes u v = absD (wQn navigationNodes u v) := by
  intro u v hv
  rcases hu : navigationNodes.lookup u with _ | nu
  · rw [show connOf navigationNodes u = [] from by unfold connOf; rw [hu]] at hv
    simp at hv
  · have humem : u ∈ keysOf navigationNodes := lookup_mem_keys hu
    have hvmem : v ∈ keysOf navigationNodes := nav_conn_closed u humem v hv
    obtain ⟨nv, hnv⟩ := mem_keys_lookup hvmem
    have hrep := nav_edges_representable u humem v hv
    rw [hu, hnv] at hrep
    simp only [Option.getD_some] at hrep
    obtain ⟨t, ht⟩ := Option.isSome_iff_exists.mp hrep
    have e1 : wR navigationNodes u v
        = ((calculateDistance nu.position nv.position : ℝ) : WithTop ℝ) := by
      unfold wR
      rw [hu, hnv]
    have e2 : wQn navigationNodes u v
        = some ((sqrtQOpt (sqdistZ nu.position nv.position)).getD (q25 0 0 0)) := by
      unfold wQn
      rw [hu, hnv]
    rw [e1, e2, ht]
    simp only [Option.getD_some]
    rw [absD_some, calculateDistance_eq_sqrt, sqrtQOpt_sound ht]
    congr 1
    ring

/-- On the navigation graph, the real search and the computable twin
produce the same path. -/
theorem nav_bridge (a b : String) :
    dijkstraPathOn navigationNodes a b = twinPathOn navigationNodes a b :=
  dijkstraOn_bridge navigationNodes nav_wR_absD a b

theorem graph2_conn_empty (u : String) : connOf graph2 u = [] := by
  unfold connOf graph2
  simp only [List.lookup]
  cases h1 : u == "A" with
  | true => rfl
  | false =>
    cases h2 : u == "B" with
    | true => rfl
    | false => rfl

theorem graph2_bridge (a b : String) :
    dijkstraPathOn graph2 a b = twinPathOn graph2 a b := by
  apply dijkstraOn_bridge
  intro u v hv
  rw [graph2_conn_empty] at hv
  simp at hv

/-! Instruction synthesis: pathSteps succeeds on key-paths and equals the
total-lookup form stepsOf, whose fields project structurally. -/

theorem mkStep_from (a b : PathNode) : (mkStep a b).«from» = a.id := rfl

theorem mkStep_to (a b : PathNode) : (mkStep a b).«to» = b.id := rfl

theorem mkStep_floor (a b : PathNode) : (mkStep a b).floor = b.floor := rfl

theorem mkStep_distance (a b : PathNode) :
    (mkStep a b).distance = jsRound (calculateDistance a.position b.position * 10) / 10 := rfl

theorem mkStep_direction (a b : PathNode) :
    (mkStep a b).direction = getDirection a.position b.position := rfl

theorem stepsOf_nil (nodes : List (String × PathNode)) : stepsOf nodes [] = [] := rfl

theorem stepsOf_single (nodes : List (String × PathNode)) (x : String) :
    stepsOf nodes [x] = [] := rfl

theorem stepsOf_cons (nodes : List (String × PathNode)) (x y : String) (rest : List String) :
    stepsOf nodes (x :: y :: rest)
      = mkStep ((nodes.lookup x).getD default) ((nodes.lookup y).getD default)
          :: stepsOf nodes (y :: rest) := rfl

theorem pathSteps_eq (nodes : List (String × PathNode)) :
    ∀ l : List String, (∀ x ∈ l, x ∈ keysOf nodes) →
      pathSteps nodes l = some (stepsOf nodes l)
  | [], _ => rfl
  | [x], _ => rfl
  | x :: y :: rest, h => by
    obtain ⟨nx, hnx⟩ := mem_keys_lookup (h x (by simp))
    obtain ⟨ny, hny⟩ := mem_keys_lookup (h y (by simp))
    have ih := pathSteps_eq nodes (y :: rest) (fun z hz => h z (by simp [hz]))
    unfold pathSteps
    rw [hnx, hny, ih, stepsOf_cons, hnx, hny]
    rfl

theorem adj_mem_left {nodes : List (String × PathNode)} {u v : String}
    (h : adjB nodes u v = true) : u ∈ keysOf nodes := by
  unfold adjB at h
  cases hu : nodes.lookup u with
  | none => rw [hu] at h; exact Bool.noConfusion h
  | some n => exact lookup_mem_keys hu

theorem adj_mem_conn {nodes : List (String × PathNode)} {u v : String}
    (h : adjB nodes u v = true) : v ∈ connOf nodes u := by
  unfold adjB at h
  unfold connOf
  cases hu : nodes.lookup u with
  | none => rw [hu] at h; exact Bool.noConfusion h
  | some n =>
    rw [hu] at h
    simpa using h

theorem isWalk_cons {nodes : List (String × PathNode)} {u v : String} {rest : List String}
    (h : IsWalk nodes (u :: v :: rest)) :
    adjB nodes u v = true ∧ IsWalk nodes (v :: rest) := by
  unfold IsWalk isWalkB at h
  simp only [Bool.and_eq_true] at h
  exact h

theorem isWalk_mem {nodes : List (String × PathNode)} :
    ∀ {p : List String}, IsWalk nodes p → ∀ x ∈ p, x ∈ keysOf nodes := by
  intro p
  induction p with
  | nil => intro h; exact absurd h (by unfold IsWalk isWalkB; simp)
  | cons u rest ih =>
    intro h x hx
    cases rest with
    | nil =>
      unfold IsWalk isWalkB at h
      simp only [List.mem_singleton] at hx
      subst hx
      simpa using h
    | cons v rest2 =>
      obtain ⟨hadj, hrest⟩ := isWalk_cons h
      rcases List.mem_cons.mp hx with hx0 | hx1
      · subst hx0
        exact adj_mem_left hadj
      · exact ih hrest x hx1

theorem toR_zero : toR (q25 0 0 0) = 0 := by
  unfold toR q25
  norm_num

theorem toR_int (m : ℤ) : toR (q25 m 0 0) = (m : ℝ) := by
  unfold toR q25
  norm_num

/-- The id stored at each key of the navigation graph equals the key. -/
theorem nav_id_consistent :
    ∀ x ∈ keysOf navigationNodes, ((navigationNodes.lookup x).getD default).id = x := by decide

/-- The certified table vanishes on the diagonal. -/
theorem dq_refl : ∀ x ∈ keysOf navigationNodes, Dq x x = q25 0 0 0 := by decide

/-- One-step closure of the certified table: going to any neighbor first
cannot beat the table entry. -/
theorem dq_tri : ∀ bt ∈ keysOf navigationNodes, ∀ u ∈ keysOf navigationNodes,
    ∀ v ∈ connOf navigationNodes u,
      leQ (Dq u bt) ((wq20 navigationNodes u v).add (Dq v bt)) = true := by decide

theorem nav_eDist_eq {u v : String} (hconn : v ∈ connOf navigationNodes u) :
    eDist navigationNodes u v = toR (wq20 navigationNodes u v) / 20 := by
  rcases hu : navigationNodes.lookup u with _ | nu
  · rw [show connOf navigationNodes u = [] from by unfold connOf; rw [hu]] at hconn
    simp at hconn
  · have humem : u ∈ keysOf navigationNodes := lookup_mem_keys hu
    have hvmem : v ∈ keysOf navigationNodes := nav_conn_closed u humem v hconn
    obtain ⟨nv, hnv⟩ := mem_keys_lookup hvmem
    have hwr := nav_wR_absD u v hconn
    have e1 : wR navigationNodes u v
        = ((calculateDistance nu.position nv.position : ℝ) : WithTop ℝ) := by
      unfold wR
      rw [hu, hnv]
    have e2 : wQn navigationNodes u v
        = some ((sqrtQOpt (sqdistZ nu.position nv.position)).getD (q25 0 0 0)) := by
      unfold wQn
      rw [hu, hnv]
    have e3 : eDist navigationNodes u v = calculateDistance nu.position nv.position := by
      unfold eDist
      rw [hu, hnv]
    have e4 : wq20 navigationNodes u v
        = (sqrtQOpt (sqdistZ nu.position nv.position)).getD (q25 0 0 0) := by
      unfold wq20
      rw [e2]
      rfl
    rw [e1, e2] at hwr
    rw [absD_some] at hwr
    have hval := WithTop.coe_inj.mp hwr
    rw [e3, e4, hval]

/-- Lower bound of any walk by the certified table (the table is closed
under one-step relaxation and vanishes on the diagonal). -/
theorem walk_lb : ∀ (p : List String) (a b : String),
    IsWalk navigationNodes p → p.head? = some a → p.getLast? = some b →
    toR (Dq a b) / 20 ≤ walkSum navigationNodes p := by
  intro p
  induction p with
  | nil => intro a b h; exact absurd h (by unfold IsWalk isWalkB; simp)
  | cons u rest ih =>
    intro a b h hh hl
    have ha : a = u := by
      simp only [List.head?_cons, Option.some_inj] at hh
      exact hh.symm
    subst ha
    cases rest with
    | nil =>
      simp only [List.getLast?_singleton, Option.some_inj] at hl
      subst hl
      have hmem : a ∈ keysOf navigationNodes := isWalk_mem h a (by simp)
      rw [dq_refl a hmem, toR_zero]
      unfold walkSum
      norm_num
    | cons v rest2 =>
      obtain ⟨hadj, hrest⟩ := isWalk_cons h
      have hl2 : (v :: rest2).getLast? = some b := by
        rw [List.getLast?_cons_cons] at hl
        exact hl
      have hih := ih v b hrest rfl hl2
      have hconn : v ∈ connOf navigationNodes a := adj_mem_conn hadj
      have hamem : a ∈ keysOf navigationNodes := adj_mem_left hadj
      have hbmem : b ∈ keysOf navigationNodes := by
        apply isWalk_mem hrest b
        exact List.mem_of_mem_getLast? hl2
      have htri := dq_tri b hbmem a hamem v hconn
      rw [leQ_iff] at htri
      rw [toR_add] at htri
      have hed := nav_eDist_eq hconn
      show toR (Dq a b) / 20 ≤ eDist navigationNodes a v + walkSum navigationNodes (v :: rest2)
      rw [hed]
      linarith

/-- Soundness of the exact tenth-rounding bracket. -/
theorem roundTenthQ_sound {t : Q25} {n : ℤ} (h : roundTenthQ t = some n) :
    ((2 * n - 1 : ℤ) : ℝ) ≤ toR t ∧ toR t < ((2 * n + 1 : ℤ) : ℝ) := by
  unfold roundTenthQ at h
  obtain ⟨m, _, hm⟩ := List.exists_of_findSome?_eq_some h
  split_ifs at hm with hcond
  · simp only [Bool.and_eq_true] at hcond
    obtain ⟨hle, hlt⟩ := hcond
    have hn : m = n := by injection hm
    subst hn
    rw [leQ_iff, toR_int] at hle
    rw [ltQ_iff, toR_int] at hlt
    constructor
    · exact_mod_cast hle
    · exact_mod_cast hlt

/-- On an edge of the navigation graph, the rounded distance field of the
emitted step is the certified rounded tenth. -/
theorem roundTenth_edge {u v : String} (hconn : v ∈ connOf navigationNodes u)
    {n : ℤ} (hr : roundTenthQ (wq20 navigationNodes u v) = some n) :
    jsRound (eDist navigationNodes u v * 10) / 10 = (n : ℝ) / 10 := by
  obtain ⟨hlo, hhi⟩ := roundTenthQ_sound hr
  have hed := nav_eDist_eq hconn
  have hfl : ⌊eDist navigationNodes u v * 10 + 1 / 2⌋ = n := by
    rw [Int.floor_eq_iff]
    constructor
    · rw [hed]
      push_cast at hlo ⊢
      linarith
    · rw [hed]
      push_cast at hhi ⊢
      linarith
  unfold jsRound
  rw [hfl]

theorem stepSum_nil : stepSum [] = 0 := by simp [stepSum]

theorem stepSum_cons (s : PathStep) (rest : List PathStep) :
    stepSum (s :: rest) = s.distance + stepSum rest := by simp [stepSum]

theorem walkSum_single (nodes : List (String × PathNode)) (x : String) :
    walkSum nodes [x] = 0 := rfl

theorem walkSum_cons (nodes : List (String × PathNode)) (u v : String) (rest : List String) :
    walkSum nodes (u :: v :: rest) = eDist nodes u v + walkSum nodes (v :: rest) := rfl

theorem sumQ_single (nodes : List (String × PathNode)) (x : String) :
    sumQ nodes [x] = q25 0 0 0 := rfl

theorem sumQ_cons (nodes : List (String × PathNode)) (u v : String) (rest : List String) :
    sumQ nodes (u :: v :: rest) = (wq20 nodes u v).add (sumQ nodes (v :: rest)) := rfl

theorem devAll_cons (b : String) (N : ℤ) (u v : String) (rest : List String) (pre : Q25) :
    devAll b N (u :: v :: rest) pre
      = (((connOf navigationNodes u).all fun y =>
          decide (y = v) ||
            leQ (q25 (2 * N) 0 0) ((pre.add (wq20 navigationNodes u y)).add (Dq y b))) &&
        devAll b N (v :: rest) (pre.add (wq20 navigationNodes u v))) := rfl

theorem edist_eq_getD {u v : String} {nu nv : PathNode}
    (hu : navigationNodes.lookup u = some nu) (hv : navigationNodes.lookup v = some nv) :
    eDist navigationNodes u v = calculateDistance nu.position nv.position := by
  unfold eDist
  rw [hu, hv]

/-- The distance sum of the emitted instructions equals the certified
rounded tenth-sum of the walked path. -/
theorem stepSum_stepsOf : ∀ (l : List String), IsWalk navigationNodes l →
    ∀ {N : ℤ}, roundSumN navigationNodes l = some N →
      stepSum (stepsOf navigationNodes l) = (N : ℝ) / 10 := by
  intro l
  induction l with
  | nil => intro h; exact absurd h (by unfold IsWalk isWalkB; simp)
  | cons u rest ih =>
    intro h N hN
    cases rest with
    | nil =>
      have hN0 : N = 0 := by
        unfold roundSumN at hN
        injection hN with h0
        exact h0.symm
      subst hN0
      rw [stepsOf_single, stepSum_nil]
      norm_num
    | cons v rest2 =>
      obtain ⟨hadj, hrest⟩ := isWalk_cons h
      unfold roundSumN at hN
      rcases hrt : roundTenthQ (wq20 navigationNodes u v) with _ | n
      · rw [hrt] at hN; exact Option.noConfusion hN
      · rcases hrs : roundSumN navigationNodes (v :: rest2) with _ | m
        · rw [hrt, hrs] at hN; exact Option.noConfusion hN
        · rw [hrt, hrs] at hN
          have hNval : N = n + m := by injection hN with h0; exact h0.symm
          subst hNval
          have hconn : v ∈ connOf navigationNodes u := adj_mem_conn hadj
          obtain ⟨nu, hnu⟩ := mem_keys_lookup (adj_mem_left hadj)
          obtain ⟨nv, hnv⟩ := mem_keys_lookup
            (nav_conn_closed u (adj_mem_left hadj) v hconn)
          rw [stepsOf_cons, stepSum_cons, mkStep_distance, hnu, hnv]
          simp only [Option.getD_some]
          have hde : calculateDistance nu.position nv.position
              = eDist navigationNodes u v := (edist_eq_getD hnu hnv).symm
          rw [hde, roundTenth_edge hconn hrt, ih hrest hrs]
          push_cast
          ring

theorem eq_single_of_nodup_head_last {l : List String} {x : String} (hnd : l.Nodup)
    (hh : l.head? = some x) (hl : l.getLast? = some x) : l = [x] := by
  cases l with
  | nil => exact Option.noConfusion hh
  | cons y rest =>
    cases rest with
    | nil =>
      have : y = x := by injection hh
      rw [this]
    | cons z rest2 =>
      have hyx : y = x := by injection hh
      rw [List.getLast?_cons_cons] at hl
      have hmem : x ∈ z :: rest2 := List.mem_of_mem_getLast? (Option.mem_def.mpr hl)
      rw [← hyx] at hmem
      exact absurd hmem (List.nodup_cons.mp hnd).1

theorem minLoopAux (b : String) :
    ∀ (L : List String) (y : String), y ∈ L →
      ∃ m, (L.foldr (fun y m =>
          let cand : DQ := some ((wq20 navigationNodes b y).add (Dq y b))
          if ltD cand m then cand else m) none) = some m
        ∧ toR m ≤ toR ((wq20 navigationNodes b y).add (Dq y b)) := by
  intro L
  induction L with
  | nil => intro y hy; simp at hy
  | cons z L2 ih =>
    intro y hy
    rcases hfold : (L2.foldr (fun y m =>
        let cand : DQ := some ((wq20 navigationNodes b y).add (Dq y b))
        if ltD cand m then cand else m) none) with _ | m2
    · -- the tail fold is none, so the tail must be empty
      have hL2 : ∀ w ∈ L2, False := by
        intro w hw
        obtain ⟨m, hm, _⟩ := ih w hw
        rw [hfold] at hm
        exact Option.noConfusion hm
      have hyz : y = z := by
        rcases List.mem_cons.mp hy with h0 | h0
        · exact h0
        · exact absurd h0 (fun hc => hL2 y hc)
      subst hyz
      refine ⟨(wq20 navigationNodes b y).add (Dq y b), ?_, le_refl _⟩
      show (List.foldr _ none (y :: L2)) = _
      rw [List.foldr_cons, hfold]
      rfl
    · -- the tail fold is some m2
      have hstep : (List.foldr (fun y m =>
          let cand : DQ := some ((wq20 navigationNodes b y).add (Dq y b))
          if ltD cand m then cand else m) none (z :: L2))
          = if ltQ ((wq20 navigationNodes b z).add (Dq z b)) m2
            then some ((wq20 navigationNodes b z).add (Dq z b)) else some m2 := by
        rw [List.foldr_cons, hfold]
        show (if ltD _ (some m2) then _ else _) = _
        cases hlt : ltQ ((wq20 navigationNodes b z).add (Dq z b)) m2
        · rw [if_neg (by simp [ltD, hlt]), if_neg (by simp [hlt])]
        · rw [if_pos (by simp [ltD, hlt]), if_pos rfl]
      rcases List.mem_cons.mp hy with h0 | h0
      · subst h0
        cases hlt : ltQ ((wq20 navigationNodes b y).add (Dq y b)) m2
        · refine ⟨m2, ?_, ltQ_iff_false.mp hlt⟩
          rw [hstep, if_neg (by simp [hlt])]
        · refine ⟨(wq20 navigationNodes b y).add (Dq y b), ?_, le_refl _⟩
          rw [hstep, if_pos hlt]
      · obtain ⟨m, hm, hle⟩ := ih y h0
        rw [hfold] at hm
        have hm2 : m = m2 := by injection hm with h0; exact h0.symm
        subst hm2
        cases hlt : ltQ ((wq20 navigationNodes b z).add (Dq z b)) m
        · exact ⟨m, by rw [hstep, if_neg (by simp [hlt])], hle⟩
        · refine ⟨(wq20 navigationNodes b z).add (Dq z b), by rw [hstep, if_pos hlt], ?_⟩
          exact le_trans (le_of_lt (ltQ_iff.mp hlt)) hle

theorem minLoopD_eq_fold (b : String) :
    minLoopD b = (connOf navigationNodes b).foldr (fun y m =>
      let cand : DQ := some ((wq20 navigationNodes b y).add (Dq y b))
      if ltD cand m then cand else m) none := rfl

/-- Main deviation bound: any walk with the same endpoints as the
returned path but different from it costs at least the certified rounded
sum, given the per-position deviation checks and the closing-loop check. -/
theorem dev_main : ∀ (p ret : List String) (pre : Q25) (b : String) (N : ℤ),
    ret.Nodup → IsWalk navigationNodes ret → ret.getLast? = some b →
    IsWalk navigationNodes p → p.head? = ret.head? → p.getLast? = some b →
    p ≠ ret →
    devAll b N ret pre = true →
    (∀ m, minLoopD b = some m →
      ((2 * N : ℤ) : ℝ) ≤ toR pre + toR (sumQ navigationNodes ret) + toR m) →
    (N : ℝ) / 10 ≤ toR pre / 20 + walkSum navigationNodes p := by
  intro p
  induction p with
  | nil => intro ret pre b N _ _ _ hpw; exact absurd hpw (by unfold IsWalk isWalkB; simp)
  | cons x yrest ih =>
    intro ret pre b N hnd hretw hretl hpw hph hpl hne hdev hloop
    cases yrest with
    | nil =>
      have hxb : x = b := by
        simp only [List.getLast?_singleton, Option.some_inj] at hpl
        exact hpl
      subst hxb
      have hret1 : ret = [x] :=
        eq_single_of_nodup_head_last hnd (by rw [← hph]; rfl) hretl
      exact absurd (by rw [hret1]) hne
    | cons y prest =>
      obtain ⟨hadjxy, hpw'⟩ := isWalk_cons hpw
      have hpl2 : (y :: prest).getLast? = some b := by
        rw [List.getLast?_cons_cons] at hpl
        exact hpl
      have hwalklb : toR (Dq y b) / 20 ≤ walkSum navigationNodes (y :: prest) :=
        walk_lb (y :: prest) y b hpw' rfl hpl2
      cases ret with
      | nil => exact absurd hretw (by unfold IsWalk isWalkB; simp)
      | cons r0 rrest =>
        have hxr0 : x = r0 := by
          simp only [List.head?_cons, Option.some_inj] at hph
          exact hph
        subst hxr0
        cases rrest with
        | nil =>
          -- the returned path is the single node b; p is a closed walk at b
          have hxb : x = b := by
            simp only [List.getLast?_singleton, Option.some_inj] at hretl
            exact hretl
          subst hxb
          have hyconn : y ∈ connOf navigationNodes x := adj_mem_conn hadjxy
          obtain ⟨m, hm, hmle⟩ := minLoopAux x (connOf navigationNodes x) y hyconn
          have hmin : minLoopD x = some m := by rw [minLoopD_eq_fold]; exact hm
          have hlp := hloop m hmin
          rw [sumQ_single, toR_zero] at hlp
          have hed := nav_eDist_eq hyconn
          rw [toR_add] at hmle
          have hws : walkSum navigationNodes (x :: y :: prest)
              = eDist navigationNodes x y + walkSum navigationNodes (y :: prest) := rfl
          rw [hws, hed]
          push_cast at hlp
          linarith
        | cons r1 rrest2 =>
          obtain ⟨hadj01, hretw'⟩ := isWalk_cons hretw
          have hretl2 : (r1 :: rrest2).getLast? = some b := by
            rw [List.getLast?_cons_cons] at hretl
            exact hretl
          rw [devAll_cons] at hdev
          simp only [Bool.and_eq_true] at hdev
          obtain ⟨hall, hdev'⟩ := hdev
          by_cases hy : y = r1
          · subst hy
            have hrecur := ih (y :: rrest2) (pre.add (wq20 navigationNodes x y)) b N
              (List.nodup_cons.mp hnd).2 hretw' hretl2 hpw' rfl hpl2
              (fun hc => hne (by rw [hc]))
              hdev'
              (fun m hm => by
                have hlp := hloop m hm
                rw [sumQ_cons, toR_add] at hlp
                rw [toR_add]
                linarith)
            have hconn01 : y ∈ connOf navigationNodes x := adj_mem_conn hadj01
            have hed := nav_eDist_eq hconn01
            rw [toR_add] at hrecur
            have hws : walkSum navigationNodes (x :: y :: prest)
                = eDist navigationNodes x y + walkSum navigationNodes (y :: prest) := rfl
            rw [hws, hed]
            linarith
          · have hyconn : y ∈ connOf navigationNodes x := adj_mem_conn hadjxy
            have hclause := List.all_eq_true.mp hall y hyconn
            simp only [Bool.or_eq_true] at hclause
            rcases hclause with hc | hc
            · exact absurd (of_decide_eq_true hc) hy
            · rw [leQ_iff, toR_int, toR_add, toR_add] at hc
              have hed := nav_eDist_eq hyconn
              have hws : walkSum navigationNodes (x :: y :: prest)
                  = eDist navigationNodes x y + walkSum navigationNodes (y :: prest) := rfl
              rw [hws, hed]
              push_cast at hc
              linarith

/-- Unpacking the per-pair certificate: a certified pair yields a twin
path whose rounded length bounds every other walk between the ids. -/
theorem c5pair_sound {a b : String} (hok : c5pairOk a b = true) :
    ∃ ret, twinPathOn navigationNodes a b = some ret ∧ ret.head? = some a ∧
      ret.getLast? = some b ∧ IsWalk navigationNodes ret ∧ ret.Nodup ∧
      ∃ N : ℤ, roundSumN navigationNodes ret = some N ∧
        ∀ p, IsWalk navigationNodes p → p.head? = some a → p.getLast? = some b →
          p ≠ ret → (N : ℝ) / 10 ≤ walkSum navigationNodes p := by
  unfold c5pairOk at hok
  rcases htw : twinPathOn navigationNodes a b with _ | ret
  · rw [htw] at hok
    exact Bool.noConfusion hok
  · rw [htw] at hok
    have hok2 : (decide (ret.head? = some a) && decide (ret.getLast? = some b) &&
        isWalkB navigationNodes ret && decide ret.Nodup &&
        (match roundSumN navigationNodes ret with
         | none => false
         | some N =>
           leQ (q25 (2 * N) 0 0) (Dq a b) ||
           (devAll b N ret (q25 0 0 0) &&
             match minLoopD b with
             | none => true
             | some m => leQ (q25 (2 * N) 0 0) ((sumQ navigationNodes ret).add m)))) = true := hok
    rcases hrs : roundSumN navigationNodes ret with _ | N
    · rw [hrs] at hok2
      simp at hok2
    · rw [hrs] at hok2
      simp only [Bool.and_eq_true, decide_eq_true_eq] at hok2
      obtain ⟨⟨⟨⟨hh, hl⟩, hw⟩, hnd⟩, hrest⟩ := hok2
      refine ⟨ret, rfl, hh, hl, hw, hnd, N, hrs, ?_⟩
      intro p hp hph hpl hne
      simp only [Bool.or_eq_true] at hrest
      rcases hrest with hc1 | hc2
      · rw [leQ_iff, toR_int] at hc1
        have hlb := walk_lb p a b hp hph hpl
        push_cast at hc1
        linarith
      · simp only [Bool.and_eq_true] at hc2
        obtain ⟨hdev, hloopB⟩ := hc2
        have hloop : ∀ m, minLoopD b = some m →
            ((2 * N : ℤ) : ℝ) ≤ toR (q25 0 0 0) + toR (sumQ navigationNodes ret) + toR m := by
          intro m hm
          rw [hm] at hloopB
          have hb2 : leQ (q25 (2 * N) 0 0) ((sumQ navigationNodes ret).add m) = true := hloopB
          rw [leQ_iff, toR_int, toR_add] at hb2
          rw [toR_zero]
          linarith
        have hmain := dev_main p ret (q25 0 0 0) b N hnd hw hl hp (by rw [hph, hh]) hpl
          hne hdev hloop
        rw [toR_zero] at hmain
        linarith

set_option maxHeartbeats 4000000 in
/-- The certificate holds for every ordered pair of graph keys (kernel
computation over the twin). -/
theorem c5all : ∀ a ∈ keysOf navigationNodes, ∀ b ∈ keysOf navigationNodes,
    c5pairOk a b = true := by decide

/-- C5: for every connected pair (a, b), the sum of the rounded distance
fields of the instructions returned by findPath is at most the exact
Euclidean length of any other valid walk from a to b in the graph. -/
theorem c5_dijkstra_optimality (a b : String) (p : List String)
    (hp : IsWalk navigationNodes p) (hh : p.head? = some a) (hl : p.getLast? = some b)
    (hother : some p ≠ dijkstraPathOn navigationNodes a b) :
    ∃ steps, findPath a b = some steps ∧ stepSum steps ≤ walkSum navigationNodes p := by
  have hamem : a ∈ keysOf navigationNodes :=
    isWalk_mem hp a (List.mem_of_mem_head? (Option.mem_def.mpr hh))
  have hbmem : b ∈ keysOf navigationNodes :=
    isWalk_mem hp b (List.mem_of_mem_getLast? (Option.mem_def.mpr hl))
  obtain ⟨ret, htw, hrh, hrl, hrw, hrnd, N, hrs, hbound⟩ :=
    c5pair_sound (c5all a hamem b hbmem)
  have hbr : dijkstraPathOn navigationNodes a b = some ret := by
    rw [nav_bridge, htw]
  have hps : pathSteps navigationNodes ret = some (stepsOf navigationNodes ret) :=
    pathSteps_eq navigationNodes ret (isWalk_mem hrw)
  refine ⟨stepsOf navigationNodes ret, ?_, ?_⟩
  · unfold findPath findPathOn
    rw [hbr]
    exact hps
  · rw [stepSum_stepsOf ret hrw hrs]
    have hpn : p ≠ ret := fun hc => hother (by rw [hc, hbr])
    exact hbound p hp hh hl hpn

/-- Witness for C5 at a concrete alternative walk. -/
theorem c5_dijkstra_optimality_witness :
    IsWalk navigationNodes ["ENTRANCE", "HALL1_2", "HALL1_1"] ∧
    (["ENTRANCE", "HALL1_2", "HALL1_1"] : List String).head? = some "ENTRANCE" ∧
    (["ENTRANCE", "HALL1_2", "HALL1_1"] : List String).getLast? = some "HALL1_1" ∧
    some ["ENTRANCE", "HALL1_2", "HALL1_1"]
      ≠ dijkstraPathOn navigationNodes "ENTRANCE" "HALL1_1" ∧
    ∃ steps, findPath "ENTRANCE" "HALL1_1" = some steps ∧
      stepSum steps ≤ walkSum navigationNodes ["ENTRANCE", "HALL1_2", "HALL1_1"] := by
  have h1 : IsWalk navigationNodes ["ENTRANCE", "HALL1_2", "HALL1_1"] := by
    unfold IsWalk
    decide
  have h2 : (["ENTRANCE", "HALL1_2", "HALL1_1"] : List String).head? = some "ENTRANCE" := rfl
  have h3 : (["ENTRANCE", "HALL1_2", "HALL1_1"] : List String).getLast? = some "HALL1_1" := rfl
  have h4 : some ["ENTRANCE", "HALL1_2", "HALL1_1"]
      ≠ dijkstraPathOn navigationNodes "ENTRANCE" "HALL1_1" := by
    rw [nav_bridge]
    decide
  exact ⟨h1, h2, h3, h4, c5_dijkstra_optimality "ENTRANCE" "HALL1_1" _ h1 h2 h3 h4⟩

/-- C7: for every key w of the graph, the search from w to w reconstructs
the single-node path and findPath returns the empty instruction list. -/
theorem c7_same_waypoint_empty (w : String) (hw : w ∈ keysOf navigationNodes) :
    dijkstraPathOn navigationNodes w w = some [w] ∧ findPath w w = some [] := by
  obtain ⟨ret, htw, hrh, hrl, hrw, hrnd, _, _, _⟩ := c5pair_sound (c5all w hw w hw)
  have hret1 : ret = [w] := eq_single_of_nodup_head_last hrnd hrh hrl
  subst hret1
  have hbr : dijkstraPathOn navigationNodes w w = some [w] := by
    rw [nav_bridge, htw]
  refine ⟨hbr, ?_⟩
  unfold findPath findPathOn
  rw [hbr]
  rfl

/-- Witness for C7 at the entrance waypoint. -/
theorem c7_same_waypoint_empty_witness :
    "ENTRANCE" ∈ keysOf navigationNodes ∧
    (dijkstraPathOn navigationNodes "ENTRANCE" "ENTRANCE" = some ["ENTRANCE"] ∧
      findPath "ENTRANCE" "ENTRANCE" = some []) :=
  ⟨by decide, c7_same_waypoint_empty "ENTRANCE" (by decide)⟩

/-- C1: the code has no unknown-waypoint outcome.  An unknown start id
with a known end id silently produces the empty instruction list, and an
unknown end id makes the predecessor walk diverge (modelled as none);
neither is a distinct failure value detected before the search. -/
theorem c1_no_unknown_waypoint_outcome :
    ("GHOST" ∈ keysOf navigationNodes → False) ∧
    findPath "GHOST" "LIB" = some [] ∧
    findPath "ENTRANCE" "GHOST" = none := by
  refine ⟨by decide, ?_, ?_⟩
  · unfold findPath findPathOn
    rw [nav_bridge]
    rw [show twinPathOn navigationNodes "GHOST" "LIB" = some ["LIB"] from by decide]
    rfl
  · unfold findPath findPathOn
    rw [nav_bridge]
    rw [show twinPathOn navigationNodes "ENTRANCE" "GHOST" = none from by decide]
    rfl

/-- C2: on a two-component graph with both ids present but no connecting
walk, findPath silently returns the empty instruction list instead of a
distinct no-path failure value. -/
theorem c2_disconnected_silent_empty :
    "A" ∈ keysOf graph2 ∧ "B" ∈ keysOf graph2 ∧
    ¬ Connected graph2 "A" "B" ∧
    findPathOn graph2 "A" "B" = some [] := by
  refine ⟨by decide, by decide, ?_, ?_⟩
  · rintro ⟨p, hp, hph, hpl⟩
    cases p with
    | nil => exact Option.noConfusion hph
    | cons x rest =>
      have hxa : x = "A" := by injection hph
      subst hxa
      cases rest with
      | nil =>
        have hAB : "A" = "B" := by
          simp only [List.getLast?_singleton, Option.some_inj] at hpl
          exact hpl
        exact absurd hAB (by decide)
      | cons y rest2 =>
        obtain ⟨hadj, _⟩ := isWalk_cons hp
        have hconn : y ∈ connOf graph2 "A" := adj_mem_conn hadj
        rw [graph2_conn_empty] at hconn
        simp at hconn
  · unfold findPathOn
    rw [graph2_bridge]
    rw [show twinPathOn graph2 "A" "B" = some ["B"] from by decide]
    rfl

/-- C3 (code bug exhibit): the segment into STAIRS1, whose floor equals
the floor of HALL1_1, still carries floorChange some down and an
instruction to take the stairs down to the floor already occupied. -/
theorem c3_same_floor_stairs_floorchange :
    ∃ s, findPath "HALL1_1" "STAIRS1" = some [s] ∧
      s.floorChange = some "down" ∧
      s.instruction = "Take the stairs down to floor 1" ∧
      s.floor = 1 ∧
      ((navigationNodes.lookup "HALL1_1").getD default).floor = 1 ∧
      ((navigationNodes.lookup "STAIRS1").getD default).floor = 1 ∧
      ((navigationNodes.lookup "STAIRS1").getD default).type = NodeType.stairs := by
  refine ⟨mkStep ((navigationNodes.lookup "HALL1_1").getD default)
      ((navigationNodes.lookup "STAIRS1").getD default), ?_, rfl, rfl, rfl, rfl, rfl, rfl⟩
  unfold findPath findPathOn
  rw [nav_bridge]
  rw [show twinPathOn navigationNodes "HALL1_1" "STAIRS1"
      = some ["HALL1_1", "STAIRS1"] from by decide]
  exact pathSteps_eq navigationNodes ["HALL1_1", "STAIRS1"] (by decide)

/-- C4 (code bug exhibit): the route from the entrance to the library
ends at LIB with a non-decreasing floor sequence, but two instructions
carry floorChange: the same-floor walk into STAIRS1 spuriously gets
down, and the actual climb STAIRS1 to STAIRS2 gets up. -/
theorem c4_entrance_lib_route :
    ∃ steps, findPath "ENTRANCE" "LIB" = some steps ∧
      steps.map (fun s => s.«to»)
        = ["HALL1_1", "STAIRS1", "STAIRS2", "HALL2_1", "HALL2_2", "LIB"] ∧
      steps.map (fun s => s.floor) = [1, 1, 2, 2, 2, 2] ∧
      steps.map (fun s => s.floorChange)
        = [none, some "down", some "up", none, none, none] ∧
      (steps.filter fun s => s.floorChange.isSome).length = 2 := by
  refine ⟨stepsOf navigationNodes
      ["ENTRANCE", "HALL1_1", "STAIRS1", "STAIRS2", "HALL2_1", "HALL2_2", "LIB"],
      ?_, rfl, rfl, rfl, rfl⟩
  unfold findPath findPathOn
  rw [nav_bridge]
  rw [show twinPathOn navigationNodes "ENTRANCE" "LIB"
      = some ["ENTRANCE", "HALL1_1", "STAIRS1", "STAIRS2", "HALL2_1", "HALL2_2", "LIB"]
      from by decide]
  exact pathSteps_eq navigationNodes
    ["ENTRANCE", "HALL1_1", "STAIRS1", "STAIRS2", "HALL2_1", "HALL2_2", "LIB"] (by decide)

theorem stepsOf_map_to (nodes : List (String × PathNode)) :
    ∀ l : List String, (∀ x ∈ l, ((nodes.lookup x).getD default).id = x) →
      (stepsOf nodes l).map (fun s => s.«to») = l.tail
  | [], _ => rfl
  | [_], _ => rfl
  | x :: y :: rest, hid => by
    rw [stepsOf_cons, List.map_cons, mkStep_to, hid y (by simp)]
    show y :: (stepsOf nodes (y :: rest)).map (fun s => s.«to») = y :: rest
    rw [stepsOf_map_to nodes (y :: rest) (fun z hz => hid z (by simp [hz]))]
    rfl

theorem stepsOf_chain (nodes : List (String × PathNode)) :
    ∀ l : List String, List.Chain' (fun s t => s.«to» = t.«from») (stepsOf nodes l)
  | [] => List.chain'_nil
  | [_] => by rw [stepsOf_single]; exact List.chain'_nil
  | [_, _] => by
    rw [stepsOf_cons, stepsOf_single]
    exact List.chain'_singleton _
  | x :: y :: z :: rest => by
    have ih := stepsOf_chain nodes (y :: z :: rest)
    rw [stepsOf_cons]
    rw [stepsOf_cons] at ih ⊢
    rw [List.chain'_cons]
    exact ⟨rfl, ih⟩

theorem stepsOf_getLast_to (nodes : List (String × PathNode)) :
    ∀ (l : List String) (b : String),
      (∀ x ∈ l, ((nodes.lookup x).getD default).id = x) →
      l.getLast? = some b →
      2 ≤ l.length →
      ∃ sl, (stepsOf nodes l).getLast? = some sl ∧ sl.«to» = b
  | [], _, _, _, hlen => by simp at hlen
  | [_], _, _, _, hlen => by simp at hlen
  | x :: y :: rest, b, hid, hl, _ => by
    cases rest with
    | nil =>
      have hyb : y = b := by
        rw [List.getLast?_cons_cons, List.getLast?_singleton] at hl
        injection hl
      refine ⟨mkStep ((nodes.lookup x).getD default) ((nodes.lookup y).getD default),
        rfl, ?_⟩
      rw [mkStep_to, hid y (by simp), hyb]
    | cons z rest2 =>
      have hl2 : (y :: z :: rest2).getLast? = some b := by
        rw [List.getLast?_cons_cons] at hl
        exact hl
      obtain ⟨sl, hsl, hto⟩ := stepsOf_getLast_to nodes (y :: z :: rest2) b
        (fun w hw => hid w (by simp [hw])) hl2 (by simp)
      refine ⟨sl, ?_, hto⟩
      rw [stepsOf_cons]
      rw [stepsOf_cons] at hsl ⊢
      rw [List.getLast?_cons_cons]
      exact hsl

/-- C6: for every connected pair of distinct ids, findPath returns a
nonempty instruction list whose first from is the start, whose last to is
the goal, and whose consecutive instructions chain. -/
theorem c6_instruction_chain (a b : String) (hab : a ≠ b)
    (hc : Connected navigationNodes a b) :
    ∃ steps s0 sl, findPath a b = some steps ∧ steps ≠ [] ∧
      steps.head? = some s0 ∧ s0.«from» = a ∧
      steps.getLast? = some sl ∧ sl.«to» = b ∧
      List.Chain' (fun s t => s.«to» = t.«from») steps := by
  obtain ⟨p, hp, hph, hpl⟩ := hc
  have hamem : a ∈ keysOf navigationNodes :=
    isWalk_mem hp a (List.mem_of_mem_head? (Option.mem_def.mpr hph))
  have hbmem : b ∈ keysOf navigationNodes :=
    isWalk_mem hp b (List.mem_of_mem_getLast? (Option.mem_def.mpr hpl))
  obtain ⟨ret, htw, hrh, hrl, hrw, _, _, _, _⟩ := c5pair_sound (c5all a hamem b hbmem)
  have hbr : dijkstraPathOn navigationNodes a b = some ret := by
    rw [nav_bridge, htw]
  have hid : ∀ x ∈ ret, ((navigationNodes.lookup x).getD default).id = x :=
    fun x hx => nav_id_consistent x (isWalk_mem hrw x hx)
  cases ret with
  | nil => exact Option.noConfusion hrh
  | cons r0 rest =>
    have hr0 : r0 = a := by injection hrh
    subst hr0
    cases rest with
    | nil =>
      have : r0 = b := by
        simp only [List.getLast?_singleton, Option.some_inj] at hrl
        exact hrl
      exact absurd this hab
    | cons r1 rest2 =>
      obtain ⟨sl, hsl, hslto⟩ := stepsOf_getLast_to navigationNodes (r0 :: r1 :: rest2) b
        hid hrl (by simp)
      refine ⟨stepsOf navigationNodes (r0 :: r1 :: rest2),
        mkStep ((navigationNodes.lookup r0).getD default)
          ((navigationNodes.lookup r1).getD default), sl, ?_, ?_, ?_, ?_, hsl, hslto, ?_⟩
      · unfold findPath findPathOn
        rw [hbr]
        exact pathSteps_eq navigationNodes _ (isWalk_mem hrw)
      · rw [stepsOf_cons]
        exact List.cons_ne_nil _ _
      · rw [stepsOf_cons]
        rfl
      · rw [mkStep_from, hid r0 (by simp)]
      · exact stepsOf_chain navigationNodes _

/-- Witness for C6 at the entrance-to-library pair. -/
theorem c6_instruction_chain_witness :
    ("ENTRANCE" : String) ≠ "LIB" ∧ Connected navigationNodes "ENTRANCE" "LIB" ∧
    (∃ steps s0 sl, findPath "ENTRANCE" "LIB" = some steps ∧ steps ≠ [] ∧
      steps.head? = some s0 ∧ s0.«from» = "ENTRANCE" ∧
      steps.getLast? = some sl ∧ sl.«to» = "LIB" ∧
      List.Chain' (fun s t => s.«to» = t.«from») steps) := by
  have hne : ("ENTRANCE" : String) ≠ "LIB" := by decide
  have hcw : Connected navigationNodes "ENTRANCE" "LIB" := by
    refine ⟨["ENTRANCE", "HALL1_1", "STAIRS1", "STAIRS2", "HALL2_1", "HALL2_2", "LIB"],
      ?_, rfl, rfl⟩
    unfold IsWalk
    decide
  exact ⟨hne, hcw, c6_instruction_chain "ENTRANCE" "LIB" hne hcw⟩

/-! Bearing classifier: the eight half-open sectors cover every real
angle exactly once, so the forward fallback is dead code. -/

theorem sector_exists_label (a : ℝ) :
    ∃ i : Fin 8, sectorCondN i.val a ∧ classifyAngle a = sectorLabel i.val := by
  unfold classifyAngle
  split_ifs with h1 h2 h3 h4 h5 h6 h7 h8
  · exact ⟨0, h1, rfl⟩
  · exact ⟨1, h2, rfl⟩
  · exact ⟨2, h3, rfl⟩
  · exact ⟨3, h4, rfl⟩
  · exact ⟨4, h5, rfl⟩
  · exact ⟨5, h6, rfl⟩
  · exact ⟨6, h7, rfl⟩
  · exact ⟨7, h8, rfl⟩
  · exfalso
    push_neg at h1 h2 h3 h4 h5 h6 h7 h8
    obtain ⟨ha1, ha2⟩ := h5
    have hc := h4 (h3 (h2 (h1 (h8 (h7 (h6 ha2))))))
    linarith

theorem sector_unique (a : ℝ) :
    ∀ i < 8, ∀ j < 8, sectorCondN i a → sectorCondN j a → i = j := by
  intro i hi8 j hj8 hi hj
  interval_cases i <;> interval_cases j <;> simp only [sectorCondN] at hi hj <;> try rfl
  all_goals exfalso
  all_goals try obtain ⟨hi1, hi2⟩ := hi
  all_goals try obtain ⟨hj1, hj2⟩ := hj
  all_goals try rcases hi with hi1 | hi1
  all_goals try rcases hj with hj1 | hj1
  all_goals linarith

theorem classify_ne_forward (a : ℝ) : classifyAngle a ≠ "forward" := by
  obtain ⟨i, _, hlab⟩ := sector_exists_label a
  rw [hlab]
  fin_cases i <;> decide

/-- C8: the bearing classifier is total, the eight 45-degree half-open
sectors cover every angle exactly once, the classifier returns the label
of the unique matching sector, and the forward fallback is unreachable
for any displacement. -/
theorem c8_bearing_partition :
    (∀ a : ℝ, ∃! i : Fin 8, sectorCondN i.val a) ∧
    (∀ a : ℝ, ∃ i : Fin 8, sectorCondN i.val a ∧ classifyAngle a = sectorLabel i.val) ∧
    (∀ fromPos toPos : ℤ × ℤ × ℤ, getDirection fromPos toPos ≠ "forward") := by
  refine ⟨?_, sector_exists_label, ?_⟩
  · intro a
    obtain ⟨i, hi, _⟩ := sector_exists_label a
    exact ⟨i, hi, fun j hj => Fin.ext (sector_unique a j.val j.isLt i.val i.isLt hj hi)⟩
  · intro p q
    unfold getDirection
    exact classify_ne_forward _

/-! Vertical segments: a zero horizontal displacement lands in the east
sector because atan2 0 0 = 0. -/

theorem angleOf_zero : angleOf 0 0 = 0 := by
  unfold angleOf
  have h0 : (⟨0, 0⟩ : ℂ) = 0 := by
    apply Complex.ext <;> simp
  rw [h0, Complex.arg_zero]
  simp

theorem classifyAngle_zero : classifyAngle 0 = "east" := by
  unfold classifyAngle
  have hc : (-22.5 : ℝ) ≤ 0 ∧ (0 : ℝ) < 22.5 := by norm_num
  rw [if_pos hc]

/-- C10: a segment with zero horizontal displacement is classified east
(never forward), and in particular the purely vertical STAIRS1 to
STAIRS2 instruction carries direction east. -/
theorem c10_vertical_segment_east :
    (∀ p q : ℤ × ℤ × ℤ, q.1 - p.1 = 0 → q.2.2 - p.2.2 = 0 →
      getDirection p q = "east") ∧
    (∃ s rest, findPath "STAIRS1" "STAIRS2" = some (s :: rest) ∧ s.direction = "east") := by
  have hgen : ∀ p q : ℤ × ℤ × ℤ, q.1 - p.1 = 0 → q.2.2 - p.2.2 = 0 →
      getDirection p q = "east" := by
    intro p q h1 h2
    unfold getDirection
    rw [h1, h2]
    simp only [Int.cast_zero]
    rw [angleOf_zero, classifyAngle_zero]
  refine ⟨hgen, ?_⟩
  refine ⟨mkStep ((navigationNodes.lookup "STAIRS1").getD default)
      ((navigationNodes.lookup "STAIRS2").getD default), [], ?_, ?_⟩
  · unfold findPath findPathOn
    rw [nav_bridge]
    rw [show twinPathOn navigationNodes "STAIRS1" "STAIRS2"
        = some ["STAIRS1", "STAIRS2"] from by decide]
    exact pathSteps_eq navigationNodes ["STAIRS1", "STAIRS2"] (by decide)
  · rw [mkStep_direction]
    apply hgen <;> decide

/-- Witness for C10 at the stairs positions of the dataset. -/
theorem c10_vertical_segment_east_witness :
    (((-1, 2, -1) : ℤ × ℤ × ℤ).1 - ((-1, 1, -1) : ℤ × ℤ × ℤ).1 = 0) ∧
    (((-1, 2, -1) : ℤ × ℤ × ℤ).2.2 - ((-1, 1, -1) : ℤ × ℤ × ℤ).2.2 = 0) ∧
    getDirection (-1, 1, -1) (-1, 2, -1) = "east" :=
  ⟨by decide, by decide,
    c10_vertical_segment_east.1 (-1, 1, -1) (-1, 2, -1) (by decide) (by decide)⟩

/-! Path-node extractor: the double fold of insert-if-absent equals
keep-first deduplication of the flattened from and to ids. -/

theorem foldl_push_flat : ∀ (steps : List PathStep) (acc : List String),
    steps.foldl (fun ns s => pushUnique (pushUnique ns s.«from») s.«to») acc
      = (steps.flatMap fun s => [s.«from», s.«to»]).foldl pushUnique acc
  | [], _ => rfl
  | s :: rest, acc => by
    rw [List.foldl_cons, List.flatMap_cons, List.foldl_append]
    rw [foldl_push_flat rest _]
    rfl

theorem firstSeen_sub : ∀ (n : ℕ) (l : List String), l.length ≤ n →
    (∀ y, y ∈ firstSeen l ↔ y ∈ l) ∧ (firstSeen l).Nodup
  | 0, [], _ => by constructor <;> simp [firstSeen]
  | 0, _ :: _, h => by simp at h
  | _ + 1, [], _ => by constructor <;> simp [firstSeen]
  | n + 1, x :: xs, h => by
    have hxs : xs.length ≤ n := by simpa using h
    have hlen : (xs.filter fun y => y ≠ x).length ≤ n :=
      le_trans (List.length_filter_le _ _) hxs
    obtain ⟨ihmem, ihnd⟩ := firstSeen_sub n (xs.filter fun y => y ≠ x) hlen
    rw [show firstSeen (x :: xs) = x :: firstSeen (xs.filter fun y => y ≠ x)
      from by rw [firstSeen]]
    constructor
    · intro y
      rw [List.mem_cons, ihmem y, List.mem_filter]
      constructor
      · rintro (rfl | ⟨hy, _⟩)
        · simp
        · simp [hy]
      · intro hy
        rcases List.mem_cons.mp hy with rfl | hy2
        · left
          rfl
        · by_cases hyx : y = x
          · left
            exact hyx
          · right
            exact ⟨hy2, by simp [hyx]⟩
    · rw [List.nodup_cons]
      refine ⟨?_, ihnd⟩
      intro hx
      rw [ihmem x, List.mem_filter] at hx
      simp at hx

theorem foldl_pushUnique_firstSeen : ∀ (ys acc : List String),
    ys.foldl pushUnique acc = acc ++ firstSeen (ys.filter fun y => y ∉ acc)
  | [], acc => by simp [firstSeen]
  | y :: ys', acc => by
    rw [List.foldl_cons, List.filter_cons]
    by_cases hy : y ∈ acc
    · rw [show pushUnique acc y = acc from by unfold pushUnique; rw [if_pos hy]]
      rw [if_neg (by simpa using hy)]
      exact foldl_pushUnique_firstSeen ys' acc
    · rw [show pushUnique acc y = acc ++ [y] from by unfold pushUnique; rw [if_neg hy]]
      rw [if_pos (by simpa using hy)]
      rw [foldl_pushUnique_firstSeen ys' (acc ++ [y])]
      rw [show firstSeen (y :: ys'.filter fun z => z ∉ acc)
          = y :: firstSeen ((ys'.filter fun z => z ∉ acc).filter fun z => z ≠ y)
        from by rw [firstSeen]]
      rw [List.filter_filter]
      have hpred : ∀ z : String,
          ((fun z => decide (z ≠ y)) z && (fun z => decide (z ∉ acc)) z)
            = (fun z => decide (z ∉ acc ++ [y])) z := by
        intro z
        show (decide (z ≠ y) && decide (z ∉ acc)) = decide (z ∉ acc ++ [y])
        rw [← Bool.decide_and]
        apply decide_eq_decide.mpr
        simp [List.mem_append, not_or]
        tauto
      rw [List.filter_congr fun z _ => hpred z]
      rw [List.append_assoc]
      rfl

/-- C9: getPathNodes is the keep-first deduplication of the from and to
ids of the instruction list, in first-seen order with no duplicates, and
is empty on empty input. -/
theorem c9_path_node_extractor :
    (∀ steps : List PathStep,
      getPathNodes steps = firstSeen (steps.flatMap fun s => [s.«from», s.«to»]) ∧
      (getPathNodes steps).Nodup ∧
      (∀ x, x ∈ getPathNodes steps ↔ ∃ s ∈ steps, s.«from» = x ∨ s.«to» = x)) ∧
    getPathNodes [] = [] := by
  have hmain : ∀ steps : List PathStep,
      getPathNodes steps = firstSeen (steps.flatMap fun s => [s.«from», s.«to»]) := by
    intro steps
    unfold getPathNodes
    rw [foldl_push_flat steps [], foldl_pushUnique_firstSeen _ []]
    rw [List.filter_eq_self.mpr (fun x _ => by simp)]
    rfl
  refine ⟨fun steps => ⟨hmain steps, ?_, ?_⟩, rfl⟩
  · rw [hmain steps]
    exact (firstSeen_sub _ _ le_rfl).2
  · intro x
    rw [hmain steps, (firstSeen_sub _ _ le_rfl).1 x, List.mem_flatMap]
    constructor
    · rintro ⟨s, hs, hx⟩
      refine ⟨s, hs, ?_⟩
      simp only [List.mem_cons, List.mem_singleton] at hx
      rcases hx with rfl | rfl | hx
      · exact Or.inl rfl
      · exact Or.inr rfl
      · simp at hx
    · rintro ⟨s, hs, hx⟩
      refine ⟨s, hs, ?_⟩
      rcases hx with h | h <;> simp [h]

end SLCNav
